import Mathlib

/-!
# lv text editor: buffer, coordinate and search engine

A shallow embedding of `src/lv.c` and machine-checked statements about it.

Conventions of the embedding

* A byte is a `Nat` below 256; a C buffer together with its length field is a
  `List Nat` (`row->chars` with `row->size`, `row->render` with `row->rsize`,
  `row->hl` with the same `rsize`).  The terminating NUL of `chars` is never
  read by the program and is not stored; `render` is read as a C string by
  `strstr`, which is modelled on the bytes before the first NUL.
* `int` values are `Int`; C `%` and `/` are `Int.tmod` and `Int.tdiv`.  Counters
  are assumed to stay inside the `int` range (signed overflow has no defined
  result in C).
* The global `E` is passed explicitly.  A step whose C execution reads or
  writes outside the objects modelled (a row index outside `[0, numrows)`, a
  match index outside `[0, sh_len)`, a byte of `chars` at or after `size`, a
  string pointer past the terminator) is given no result: `none`.
-/

namespace Lv

/-! ## defines -/

def KILO_TAB_STOP : Nat := 4

def HL_NORMAL : Nat := 0
def HL_NUMBER : Nat := 1
def HL_MATCH : Nat := 2

/-! ## data -/

/-- One line of the buffer: `size = chars.length`, `rsize = render.length`. -/
structure erow where
  chars : List Nat
  render : List Nat
  hl : List Nat
deriving DecidableEq

def erow.size (row : erow) : Int := row.chars.length

def erow.rsize (row : erow) : Int := row.render.length

structure cords where
  x : Int
  y : Int
deriving DecidableEq

/-- The global editor state: `numrows = rows.length`,
`sh_len = searchhistory.length`. -/
structure editorConfig where
  cx : Int
  cy : Int
  rx : Int
  ry : Int
  rowoff : Int
  coloff : Int
  screenrows : Int
  screencols : Int
  lncolwidth : Int
  rows : List erow
  searchhistory : List cords
  dirty : Int
deriving DecidableEq

def editorConfig.numrows (E : editorConfig) : Int := E.rows.length

def editorConfig.sh_len (E : editorConfig) : Int := E.searchhistory.length

/-- The object `E.rows[i]`, when `i` is inside the array. -/
def editorConfig.rowAt (E : editorConfig) (i : Int) : Option erow :=
  if 0 ≤ i then E.rows[i.toNat]? else none

/-! ## syntax highlighting -/

def isdigit (c : Nat) : Bool := decide (48 ≤ c) && decide (c ≤ 57)

/-- Source function `editorUpdateSyntax`: one tag per byte of `render`. -/
def editorUpdateSyntax (row : erow) : erow :=
  { row with hl := row.render.map fun c => if isdigit c then HL_NUMBER else HL_NORMAL }

/-! ## row operations -/

/-- The body of the column loops of `editorUpdateRenderCoords` and
`editorUpdateDataCoords` for one byte `c`. -/
def advanceRx (c : Nat) (rx : Int) : Int :=
  if c = 9 then
    let rx1 := rx + ((KILO_TAB_STOP : Int) - 1)
    let rx2 := rx1 - rx1.tmod (KILO_TAB_STOP : Int)
    rx2 + 1
  else rx + 1

/-- The loop `for (j = 0; j < E.cx; j++)` of `editorUpdateRenderCoords`, on the
bytes from `chars[j]` on and the number of iterations left. -/
def renderCoordsLoop : List Nat → Nat → Int → Option Int
  | _, 0, rx => some rx
  | [], _ + 1, _ => none
  | c :: cs, n + 1, rx => renderCoordsLoop cs n (advanceRx c rx)

/-- Source function `editorUpdateRenderCoords`: sets `rx`, `ry` from `cx`, `cy`. -/
def editorUpdateRenderCoords (E : editorConfig) : Option editorConfig :=
  let chars := match E.rowAt E.cy with
    | some row => row.chars
    | none => []
  (renderCoordsLoop chars E.cx.toNat (E.lncolwidth - 1)).map fun rx =>
    { E with rx := rx, ry := E.cy }

/-- The loop of `editorUpdateDataCoords`, on the bytes from `chars[j]` on, the
index `j`, the running column and the target column `E.rx`; the value is the
`cx` the function stores. -/
def dataCoordsLoop : List Nat → Nat → Int → Int → Nat
  | [], j, _, _ => j
  | c :: cs, j, rx, target =>
    let rx1 := advanceRx c rx
    if rx1 > target then j else dataCoordsLoop cs (j + 1) rx1 target

/-- Source function `editorUpdateDataCoords`: sets `cx`, `cy` from `rx`, `ry`. -/
def editorUpdateDataCoords (E : editorConfig) : Option editorConfig :=
  (E.rowAt E.ry).map fun row =>
    { E with cx := dataCoordsLoop row.chars 0 (E.lncolwidth - 1) E.rx, cy := E.ry }

/-- The render column `editorUpdateRenderCoords` computes for the cursor
`(cx, cy)`: the `rx` it stores. -/
def renderColumn (E : editorConfig) (cy cx : Int) : Option Int :=
  (editorUpdateRenderCoords { E with cx := cx, cy := cy }).map fun E1 => E1.rx

/-- The running column of the two coordinate loops after the bytes `cs`, started
at `rx` (used to state facts about the loops). -/
def colAfter (cs : List Nat) (rx : Int) : Int :=
  cs.foldl (fun rx c => advanceRx c rx) rx

/-- The loop `while (idx % KILO_TAB_STOP != 0) row->render[idx++] = ' '`. -/
def padTab : Nat → List Nat → List Nat
  | 0, render => render
  | fuel + 1, render =>
    if render.length % KILO_TAB_STOP ≠ 0 then padTab fuel (render ++ [32]) else render

/-- The second loop of `editorUpdateRow`, appending to the render built so far. -/
def renderLoop : List Nat → List Nat → List Nat
  | [], render => render
  | c :: cs, render =>
    if c = 9 then renderLoop cs (padTab KILO_TAB_STOP (render ++ [32]))
    else renderLoop cs (render ++ [c])

/-- Source function `editorUpdateRow`: rebuilds `render` and `hl` from `chars`. -/
def editorUpdateRow (row : erow) : erow :=
  editorUpdateSyntax { row with render := renderLoop row.chars [] }

/-- Source function `editorInsertRow(at, s, len)` with `s` the `len` bytes copied. -/
def editorInsertRow (E : editorConfig) (idx : Int) (s : List Nat) : editorConfig :=
  if idx < 0 ∨ idx > E.numrows then E
  else
    let row := editorUpdateRow { chars := s, render := [], hl := [] }
    { E with rows := E.rows.take idx.toNat ++ row :: E.rows.drop idx.toNat,
             dirty := E.dirty + 1 }

/-- Source function `editorDelRow(at)`. -/
def editorDelRow (E : editorConfig) (idx : Int) : editorConfig :=
  if idx < 0 ∨ idx ≥ E.numrows then E
  else { E with rows := E.rows.eraseIdx idx.toNat, dirty := E.dirty + 1 }

/-- Source function `editorRowInsertChar(row, at, c)` on the row and the counter `E.dirty`; the
`int c` is stored into a `char`. -/
def editorRowInsertChar (row : erow) (dirty : Int) (idx : Int) (c : Int) : erow × Int :=
  let pos := if idx < 0 ∨ idx > row.size then row.size else idx
  let chars := row.chars.take pos.toNat ++ (c % 256).toNat :: row.chars.drop pos.toNat
  (editorUpdateRow { row with chars := chars }, dirty + 1)

/-- Source function `editorRowAppendString(row, s, len)` on the row and the counter `E.dirty`. -/
def editorRowAppendString (row : erow) (dirty : Int) (s : List Nat) : erow × Int :=
  (editorUpdateRow { row with chars := row.chars ++ s }, dirty + 1)

/-- Source function `editorRowDelChar(row, at)` on the row and the counter `E.dirty`.  The guard
is `at < 0 || at > row->size`; `memmove` shifts the bytes after `at` down by one
and `size--` keeps the first `size - 1` bytes.  On an empty row with `at = 0`
the size becomes `-1` and `editorUpdateRow` writes into a zero-byte allocation:
no defined result. -/
def editorRowDelChar (row : erow) (dirty : Int) (idx : Int) : Option (erow × Int) :=
  if idx < 0 ∨ idx > row.size then some (row, dirty)
  else if row.chars.length = 0 then none
  else
    let chars := (row.chars.eraseIdx idx.toNat).take (row.chars.length - 1)
    some (editorUpdateRow { row with chars := chars }, dirty + 1)

/-! ## editor operations -/

/-- Source function `editorInsertChar(c)`. -/
def editorInsertChar (E : editorConfig) (c : Int) : Option editorConfig :=
  let E1 := if E.cy = E.numrows then editorInsertRow E E.numrows [] else E
  match E1.rowAt E1.cy with
  | none => none
  | some row =>
    let res := editorRowInsertChar row E1.dirty E1.cx c
    some { E1 with rows := E1.rows.set E1.cy.toNat res.1, dirty := res.2, cx := E1.cx + 1 }

/-- Source function `editorInsertNewline`.  In the `else` branch the tail
`&row->chars[E.cx]` of `row->size - E.cx` bytes becomes the new row and the row
is cut to `E.cx` bytes; an `E.cx` outside `[0, size]` there has no result. -/
def editorInsertNewline (E : editorConfig) : Option editorConfig :=
  if E.cx = 0 then
    some { editorInsertRow E E.cy [] with cy := E.cy + 1, cx := 0 }
  else
    match E.rowAt E.cy with
    | none => none
    | some row =>
      if E.cx < 0 ∨ E.cx > row.size then none
      else
        let E1 := editorInsertRow E (E.cy + 1) (row.chars.drop E.cx.toNat)
        let row1 := editorUpdateRow { row with chars := row.chars.take E.cx.toNat }
        some { E1 with rows := E1.rows.set E.cy.toNat row1, cy := E.cy + 1, cx := 0 }

/-- Source function `editorDeleteChar`. -/
def editorDeleteChar (E : editorConfig) : Option editorConfig :=
  if E.cy = E.numrows then some E
  else if E.cx = 0 ∧ E.cy = 0 then some E
  else
    match E.rowAt E.cy with
    | none => none
    | some row =>
      if E.cx > 0 then
        match editorRowDelChar row E.dirty (E.cx - 1) with
        | none => none
        | some res =>
          some { E with rows := E.rows.set E.cy.toNat res.1, dirty := res.2, cx := E.cx - 1 }
      else
        match E.rowAt (E.cy - 1) with
        | none => none
        | some prev =>
          let res := editorRowAppendString prev E.dirty row.chars
          let E1 : editorConfig :=
            { E with cx := prev.size, rows := E.rows.set (E.cy - 1).toNat res.1, dirty := res.2 }
          some { editorDelRow E1 E1.cy with cy := E1.cy - 1 }

/-! ## file i/o -/

/-- Source function `editorRowsToString`: the buffer written; `*buflen` is its length. -/
def editorRowsToString (E : editorConfig) : List Nat :=
  E.rows.foldl (fun buf row => buf ++ row.chars ++ [10]) []

/-- The successive buffers `getline(3)` yields on a stream until it returns
`-1`: each ends after the first `'\n'`, the last one at the end of the
stream. -/
def getlines : List Nat → List (List Nat)
  | [] => []
  | c :: cs =>
    if c = 10 then [c] :: getlines cs
    else match getlines cs with
      | [] => [[c]]
      | line :: rest => (c :: line) :: rest

/-- The loop `while (linelen > 0 && (line[linelen - 1] == '\n' ||
line[linelen - 1] == '\r')) linelen--`. -/
def stripLineEnd (line : List Nat) : List Nat :=
  line.rdropWhile fun c => c = 10 || c = 13

/-- Source function `editorOpen` on the content of the opened file. -/
def editorOpen (E : editorConfig) (content : List Nat) : editorConfig :=
  let E1 := (getlines content).foldl
    (fun E line => editorInsertRow E E.numrows (stripLineEnd line)) E
  { E1 with dirty := 0 }

/-! ## init -/

/-- Source function `initEditor`, with the window size `getWindowSize` reports. -/
def initEditor (winrows wincols : Int) : editorConfig :=
  { cx := 0, cy := 0, rx := 0, ry := 0, rowoff := 0, coloff := 0,
    screenrows := winrows - 2, screencols := wincols, lncolwidth := 6,
    rows := [], searchhistory := [], dirty := 0 }

/-- The buffer built by `editorInsertRow(E.numrows, line, len)` for each line. -/
def insertLines (E : editorConfig) (lines : List (List Nat)) : editorConfig :=
  lines.foldl (fun E line => editorInsertRow E E.numrows line) E

/-! ## find -/

/-- Lexicographic order on (row, column): the negation of the loop test
`m.y < ry || (m.y == ry && m.x <= rx)` of `editorFindMoveToMatch`. -/
def cursorBefore (ry rx : Int) (m : cords) : Prop :=
  ¬ (m.y < ry ∨ (m.y = ry ∧ m.x ≤ rx))

instance (ry rx : Int) (m : cords) : Decidable (cursorBefore ry rx m) := by
  unfold cursorBefore; infer_instance

/-- The loop `while (...) { i++; }` of `editorFindMoveToMatch` on the entries
from index `i` on.  The loop has no test of `i` against `sh_len`: when every
entry passes the test it reads past the entries written, with no defined
result. -/
def findScan : List cords → Int → Int → Nat → Option Nat
  | [], _, _, _ => none
  | m :: ms, ry, rx, i =>
    if m.y < ry ∨ (m.y = ry ∧ m.x ≤ rx) then findScan ms ry rx (i + 1) else some i

/-- The indices `i` at which the loop test of `editorFindMoveToMatch` reads
`E.searchhistory[i]`, for the entries from index `i` on: the loop reads an
entry, and goes on to the next index when the entry passes the test; after the
last entry written it reads index `sh_len`. -/
def findScanReads : List cords → Int → Int → Nat → List Nat
  | [], _, _, i => [i]
  | m :: ms, ry, rx, i =>
    i :: (if m.y < ry ∨ (m.y = ry ∧ m.x ≤ rx) then findScanReads ms ry rx (i + 1) else [])

/-- Source function `editorFindMoveToMatch(off)`. -/
def editorFindMoveToMatch (E : editorConfig) (off : Int) : Option editorConfig :=
  if E.sh_len = 0 then some E
  else
    match findScan E.searchhistory E.ry E.rx 0 with
    | none => none
    | some i0 =>
      let i := ((i0 : Int) + off + E.sh_len).tmod E.sh_len
      if i < 0 then none
      else
        match E.searchhistory[i.toNat]? with
        | none => none
        | some m =>
          match editorUpdateDataCoords { E with rx := m.x, ry := m.y } with
          | none => none
          | some E1 =>
            let rowoff := E1.cy - E1.screenrows.tdiv 2
            some { E1 with rowoff := if rowoff < 0 then 0 else rowoff }

/-- The bytes of the C string held in a buffer: those before the first NUL. -/
def cstr (buf : List Nat) : List Nat := buf.takeWhile fun c => c ≠ 0

/-- The function `strstr(haystack, needle)` on the bytes of two C strings: the offset of the
first occurrence, `none` for `NULL`. -/
def strstr : List Nat → List Nat → Option Nat
  | [], needle => if needle = [] then some 0 else none
  | h :: hs, needle =>
    if needle.isPrefixOf (h :: hs) then some 0
    else (strstr hs needle).map fun o => o + 1

/-- The call `memset(&buf[off], v, n)` inside the buffer. -/
def memset (buf : List Nat) (off v n : Nat) : List Nat :=
  buf.take off ++ List.replicate n v ++ buf.drop (off + n)

set_option linter.dupNamespace false in
/-- One entry of the function-static array `saved_hl_lines` of
`editorFindCallback`. -/
structure saved_hl where
  saved_cy : Nat
  saved_hl : List Nat
deriving DecidableEq

/-- The loop `while (p_match != NULL)` of `editorFindCallback` for row `i`, at
`off = p_match - row->render`, with `render` the C string `row->render`.  The
fuel bounds the iterations (each one moves `p_match` at least one byte to the
right).  `p_match + 1` past the terminator of `render` is outside the string:
no defined result. -/
def findRowLoop : Nat → List Nat → List Nat → Int → Int → Nat → List cords → List Nat →
    Option (List cords × List Nat)
  | 0, _, _, _, _, _, _, _ => none
  | fuel + 1, render, query, i, g, off, sh, hl =>
    let sh1 := sh ++ [{ x := (off : Int) + g, y := i }]
    let hl1 := memset hl off HL_MATCH query.length
    if off + 1 > render.length then none
    else
      match strstr (render.drop (off + 1)) query with
      | none => some (sh1, hl1)
      | some o => findRowLoop fuel render query i g (off + 1 + o) sh1 hl1

/-- The loop `for (i = 0; i < E.numrows; i++)` of `editorFindCallback` on the
rows from index `i` on; `g = E.lncolwidth - 1`.  The value is the rows with
their new `hl`, the match list and the saved highlight arrays. -/
def findRows : List erow → Nat → Int → List Nat → List cords → List saved_hl →
    Option (List erow × List cords × List saved_hl)
  | [], _, _, _, sh, saved => some ([], sh, saved)
  | row :: rest, i, g, query, sh, saved =>
    match strstr (cstr row.render) query with
    | none =>
      (findRows rest (i + 1) g query sh saved).map fun res => (row :: res.1, res.2)
    | some off =>
      let saved1 := saved ++ [{ saved_cy := i, saved_hl := row.hl.take row.render.length }]
      match findRowLoop ((cstr row.render).length + 1) (cstr row.render) query i g off sh
          row.hl with
      | none => none
      | some (sh1, hl1) =>
        (findRows rest (i + 1) g query sh1 saved1).map fun res =>
          ({ row with hl := hl1 } :: res.1, res.2)

/-- The loop over `saved_hl_lines` at the start of `editorFindCallback`:
`memcpy(E.rows[saved_cy].hl, saved_hl, E.rows[saved_cy].rsize)` for each entry.
A saved row index outside the buffer, or a copy longer than the saved array,
has no defined result. -/
def restoreHl : List erow → List saved_hl → Option (List erow)
  | rows, [] => some rows
  | rows, s :: rest =>
    match rows[s.saved_cy]? with
    | none => none
    | some row =>
      if row.render.length ≤ s.saved_hl.length then
        restoreHl
          (rows.set s.saved_cy
            { row with hl := s.saved_hl.take row.render.length ++ row.hl.drop row.render.length })
          rest
      else none

/-- The block `if (si) { ... }` that ends `editorFindCallback`. -/
def findJump (E : editorConfig) : Option editorConfig :=
  if E.searchhistory.length ≠ 0 then
    match editorUpdateDataCoords E with
    | none => none
    | some E1 =>
      match editorFindMoveToMatch E1 0 with
      | none => none
      | some E2 =>
        let rowoff := E2.cy - E2.screenrows.tdiv 2
        some { E2 with rowoff := if rowoff < 0 then 0 else rowoff }
  else some E

/-- Source function `editorFindCallback(query, key)`; `saved` is the static `saved_hl_lines`
(the `NULL` of the first call is the empty list) and `query` the bytes of the
C string. -/
def editorFindCallback (E : editorConfig) (saved : List saved_hl) (query : List Nat)
    (key : Int) : Option (editorConfig × List saved_hl) :=
  if key = 13 ∨ key = 27 then some (E, saved)
  else
    match restoreHl E.rows saved with
    | none => none
    | some rows0 =>
      match findRows rows0 0 (E.lncolwidth - 1) query [] [] with
      | none => none
      | some (rows1, sh, saved1) =>
        (findJump { E with rows := rows1, searchhistory := sh }).map fun E1 => (E1, saved1)

/-! ## output -/

/-- Source function `editorScroll`. -/
def editorScroll (E : editorConfig) : editorConfig :=
  let E1 := if E.cy < E.rowoff then { E with rowoff := E.cy } else E
  let E2 := if E1.cy ≥ E1.rowoff + E1.screenrows then
    { E1 with rowoff := E1.cy - E1.screenrows + 1 } else E1
  let E3 := if E2.cx < E2.coloff then { E2 with coloff := E2.cx } else E2
  if E3.cx ≥ E3.coloff + E3.screencols then
    { E3 with coloff := E3.cx - E3.screencols + 1 } else E3

/-- Source function `editorVerticalScroll(off)`. -/
def editorVerticalScroll (E : editorConfig) (off : Int) : editorConfig :=
  let dy := E.cy - E.rowoff
  let dx := E.cx
  let E1 : editorConfig :=
    if off > 0 then
      let cy := E.rowoff + E.screenrows - 1
      if cy + off ≥ E.numrows then { E with cy := E.numrows - 1 } else { E with cy := cy + off }
    else if off < 0 then
      let cy := E.rowoff
      if cy + off < 0 then { E with cy := 0 } else { E with cy := cy + off }
    else E
  let E2 := editorScroll E1
  { E2 with cy := E2.rowoff + dy, cx := dx }

/-- The part of `editorRefreshScreen` that changes `E`. -/
def editorRefreshScreen (E : editorConfig) : Option editorConfig :=
  (editorUpdateRenderCoords E).map editorScroll

/-! ## input -/

def BACKSPACE : Int := 127
def ARROW_LEFT : Int := 1000
def ARROW_RIGHT : Int := 1001
def ARROW_UP : Int := 1002
def ARROW_DOWN : Int := 1003
def DEL_KEY : Int := 1004

def CTRL_KEY (k : Nat) : Int := ((k &&& 0x1f : Nat) : Int)

/-- Source function `editorPrompt(prompt, editorFindCallback)` on the keys `editorReadKey`
returns, with `buf` the bytes typed so far.  The value is the string returned
(`none` for `NULL`) with the state; there is no value when the keys end before
the prompt returns. -/
def editorPrompt : List Int → editorConfig → List saved_hl → List Nat →
    Option (Option (List Nat) × editorConfig × List saved_hl)
  | [], _, _, _ => none
  | c :: keys, E, saved, buf =>
    match editorRefreshScreen E with
    | none => none
    | some E1 =>
      if c = DEL_KEY ∨ c = CTRL_KEY 104 ∨ c = BACKSPACE then
        match editorFindCallback E1 saved buf.dropLast c with
        | none => none
        | some (E2, saved2) => editorPrompt keys E2 saved2 buf.dropLast
      else if c = 27 then
        (editorFindCallback E1 saved buf c).map fun res => (none, res)
      else if c = 13 ∧ buf.length ≠ 0 then
        (editorFindCallback E1 saved buf c).map fun res => (some buf, res)
      else
        let buf1 := if 32 ≤ c ∧ c < 127 then buf ++ [c.toNat] else buf
        match editorFindCallback E1 saved buf1 c with
        | none => none
        | some (E2, saved2) => editorPrompt keys E2 saved2 buf1

/-- The `else` branch of `editorFind`: the prompt returned `NULL`. -/
def editorFindCancel (E0 E1 : editorConfig) : editorConfig :=
  { E1 with cx := E0.cx, cy := E0.cy, coloff := E0.coloff, rowoff := E0.rowoff }

/-- Source function `editorFind` on the keys typed at the prompt. -/
def editorFind (E : editorConfig) (saved : List saved_hl) (keys : List Int) :
    Option (editorConfig × List saved_hl) :=
  match editorPrompt keys E saved [] with
  | none => none
  | some (some _, E1, saved1) => some (E1, saved1)
  | some (none, E1, saved1) => some (editorFindCancel E E1, saved1)

/-- Source function `editorMoveCursor(key)`. -/
def editorMoveCursor (E : editorConfig) (key : Int) : editorConfig :=
  let row := if E.cy ≥ E.numrows then none else E.rowAt E.cy
  let E1 :=
    if key = 104 ∨ key = ARROW_LEFT then
      (if E.cx ≠ 0 then { E with cx := E.cx - 1 } else E)
    else if key = 106 ∨ key = ARROW_DOWN then
      (if E.cy < E.numrows then { E with cy := E.cy + 1 } else E)
    else if key = 107 ∨ key = ARROW_UP then
      (if E.cy ≠ 0 then { E with cy := E.cy - 1 } else E)
    else if key = 108 ∨ key = ARROW_RIGHT then
      (match row with
        | some r => if E.cx < r.size then { E with cx := E.cx + 1 } else E
        | none => E)
    else E
  let row1 := if E1.cy ≥ E1.numrows then none else E1.rowAt E1.cy
  let rowlen : Int := match row1 with
    | some r => r.size
    | none => 0
  if E1.cx > rowlen then { E1 with cx := rowlen } else E1

/-- The case `'n'` of `editorProcessKeypress`. -/
def editorProcessKeypress_n (E : editorConfig) : Option editorConfig :=
  editorFindMoveToMatch (editorMoveCursor E ARROW_RIGHT) 0

/-- The case `'N'` of `editorProcessKeypress`. -/
def editorProcessKeypress_N (E : editorConfig) : Option editorConfig :=
  editorFindMoveToMatch E (-1)

/-- The state after `k` successive calls of `editorFindMoveToMatch(off)`. -/
def findMoveIter (off : Int) : Nat → editorConfig → Option editorConfig
  | 0, E => some E
  | k + 1, E =>
    match editorFindMoveToMatch E off with
    | none => none
    | some E1 => findMoveIter off k E1

/-- Strictly ascending order on (row, column). -/
def cordsLt (a b : cords) : Prop := a.y < b.y ∨ (a.y = b.y ∧ a.x < b.x)

instance (a b : cords) : Decidable (cordsLt a b) := by
  unfold cordsLt; infer_instance

/-- Every saved highlight array belongs to a row of the buffer and has at least
the `rsize` tags of that row (what `editorFindCallback` leaves when no row is
edited afterwards). -/
def savedOk (rows : List erow) (saved : List saved_hl) : Prop :=
  ∀ s ∈ saved, ∃ rd, (rows.map erow.render)[s.saved_cy]? = some rd
    ∧ rd.length ≤ s.saved_hl.length

/-- Position `p` lies inside an occurrence of `q` in `hay` that starts at an
offset `o ≥ off`: `o ≤ p < o + |q|`. -/
def coveredFrom (hay q : List Nat) (off p : Nat) : Prop :=
  ∃ o, off ≤ o ∧ q <+: hay.drop o ∧ o ≤ p ∧ p < o + q.length

/-! ## example buffers -/

/-- The buffer with the single row `"aaa"`. -/
def aaaBuffer : editorConfig := insertLines (initEditor 24 80) [[97, 97, 97]]

/-- The buffer with the rows `"xaby"` and `"ababab"`. -/
def abBuffer : editorConfig :=
  insertLines (initEditor 24 80) [[120, 97, 98, 121], [97, 98, 97, 98, 97, 98]]

/-- The buffer with the single row `"a55"`. -/
def digitBuffer : editorConfig := insertLines (initEditor 24 80) [[97, 53, 53]]

/-- A buffer with three matches, `(6,0)`, `(5,1)` and `(7,1)`, as the search for
`"ab"` in the rows `"xaby"` and `"abab"` leaves them, and the cursor at render
position `(rx, ry)`. -/
def threeMatches (rx ry : Int) : editorConfig :=
  { insertLines (initEditor 24 80) [[120, 97, 98, 121], [97, 98, 97, 98]] with
    searchhistory := [{ x := 6, y := 0 }, { x := 5, y := 1 }, { x := 7, y := 1 }],
    rx := rx, ry := ry }

/-- The buffer with the single row `"a\0b"`, as `editorOpen` loads a line with a
NUL byte. -/
def nulBuffer : editorConfig := insertLines (initEditor 24 80) [[97, 0, 98]]

/-- A buffer with one row of 80 bytes `'a'` on a 24 by 80 window, the cursor at
character index 78 of that row. -/
def wideBuffer : editorConfig :=
  { insertLines (initEditor 24 80) [List.replicate 80 97] with cx := 78 }

/-- A buffer of 30 rows on a 24 by 80 window, `"abc"` followed by 29 empty rows,
the cursor at the end of row 0. -/
def unevenBuffer : editorConfig :=
  { insertLines (initEditor 24 80) ([97, 98, 99] :: List.replicate 29 []) with cx := 3 }

/-- A state on a 24 by 80 window (22 text rows) with `rowoff = 0` and the cursor
row 22, one row below the last visible row. -/
def scrollState : editorConfig := { initEditor 24 80 with cy := 22 }

/-- The rows `"xaby"` and `"ababab"` with the cursor at character index 2 of
row 1. -/
def splitState : editorConfig := { abBuffer with cx := 2, cy := 1 }

/-- The rows `"xaby"` and `"ababab"` with the cursor at the start of row 1. -/
def mergeState : editorConfig := { abBuffer with cx := 0, cy := 1 }

/-- One row with the bytes `'a'`, TAB, `'7'`, TAB, `'b'`. -/
def tabBuffer : editorConfig := insertLines (initEditor 24 80) [[97, 9, 55, 9, 98]]

/-! ## the row cache in words -/

/-- The render form of `chars` in words, read left to right after the render
`acc` built so far: a tab stands for `k` spaces, `1 ≤ k ≤ 4`, after which the
render length is a multiple of the tab stop; any other byte stands for itself. -/
def renderOf : List Nat → List Nat → List Nat → Prop
  | [], acc, render => render = acc
  | c :: cs, acc, render =>
    if c = 9 then
      ∃ k, k ≤ KILO_TAB_STOP ∧ 1 ≤ k ∧ (acc.length + k) % KILO_TAB_STOP = 0
        ∧ renderOf cs (acc ++ List.replicate k 32) render
    else renderOf cs (acc ++ [c]) render

/-- Deciding `renderOf`: the number of spaces of a tab is searched up to the tab stop. -/
instance renderOf.decide : ∀ (cs acc render : List Nat), Decidable (renderOf cs acc render)
  | [], acc, render => inferInstanceAs (Decidable (render = acc))
  | c :: cs, acc, render =>
    if h : c = 9 then
      have : ∀ k, Decidable (renderOf cs (acc ++ List.replicate k 32) render) :=
        fun k => renderOf.decide cs _ render
      decidable_of_iff (∃ k, k ≤ KILO_TAB_STOP ∧ 1 ≤ k ∧ (acc.length + k) % KILO_TAB_STOP = 0
        ∧ renderOf cs (acc ++ List.replicate k 32) render) (by simp only [renderOf, h, if_true])
    else
      have : Decidable (renderOf cs (acc ++ [c]) render) := renderOf.decide cs _ render
      decidable_of_iff (renderOf cs (acc ++ [c]) render) (by simp only [renderOf, h, if_false])

/-- The row cache invariant in words: `render` is the render form of `chars`,
`rsize` is the length of `render`, and `hl` has `rsize` tags, `HL_NUMBER` at
the ASCII digits of `render` (bytes 48 to 57) and `HL_NORMAL` elsewhere.  The
second part holds of every `erow` here, where `rsize` is read off `render`. -/
def rowCacheOk (row : erow) : Prop :=
  renderOf row.chars [] row.render
    ∧ row.rsize = row.render.length
    ∧ row.hl.length = row.rsize
    ∧ ∀ p, p < row.render.length →
        row.hl[p]? = row.render[p]?.map fun c => if 48 ≤ c ∧ c ≤ 57 then HL_NUMBER else HL_NORMAL

instance rowCacheOk.decide (row : erow) : Decidable (rowCacheOk row) := by
  unfold rowCacheOk
  infer_instance

/-- Every row of the buffer satisfies the row cache invariant. -/
def cacheOk (E : editorConfig) : Prop := ∀ row ∈ E.rows, rowCacheOk row

instance cacheOk.decide (E : editorConfig) : Decidable (cacheOk E) := by
  unfold cacheOk
  infer_instance

/-! ## row store: basic facts -/

theorem editorUpdateRow_chars (row : erow) : (editorUpdateRow row).chars = row.chars := rfl

theorem editorInsertRow_end (E : editorConfig) (s : List Nat) :
    (editorInsertRow E E.numrows s).rows.map erow.chars = E.rows.map erow.chars ++ [s] := by
  have h : ¬ ((E.numrows < 0) ∨ (E.numrows > E.numrows)) := by
    simp only [editorConfig.numrows]; omega
  simp only [editorInsertRow, h, if_false]
  simp [editorConfig.numrows, editorUpdateRow_chars]

theorem insertLines_chars (lines : List (List Nat)) (E : editorConfig) :
    (insertLines E lines).rows.map erow.chars = E.rows.map erow.chars ++ lines := by
  induction lines generalizing E with
  | nil => simp [insertLines]
  | cons l ls ih =>
    have := ih (editorInsertRow E E.numrows l)
    simp only [insertLines, List.foldl_cons] at this ⊢
    rw [this, editorInsertRow_end]
    simp

theorem rowsToString_foldl (rows : List erow) (buf : List Nat) :
    rows.foldl (fun buf row => buf ++ row.chars ++ [10]) buf
      = buf ++ (rows.map fun row => row.chars ++ [10]).flatten := by
  induction rows generalizing buf with
  | nil => simp
  | cons r rs ih =>
    rw [List.foldl_cons, ih]
    simp

theorem getlines_line (l rest : List Nat) (h : 10 ∉ l) :
    getlines (l ++ 10 :: rest) = (l ++ [10]) :: getlines rest := by
  induction l with
  | nil => simp [getlines]
  | cons c cs ih =>
    have hc : c ≠ 10 := fun e => h (by simp [e])
    have hcs : 10 ∉ cs := fun e => h (by simp [e])
    simp [getlines, hc, ih hcs]

theorem stripLineEnd_line (l : List Nat) (h : l.getLast? ≠ some 13) (h10 : 10 ∉ l) :
    stripLineEnd (l ++ [10]) = l := by
  unfold stripLineEnd
  rw [List.rdropWhile_concat_pos _ _ _ (by simp)]
  rw [List.rdropWhile_eq_self_iff]
  intro hl
  have hlast : l.getLast? = some (l.getLast hl) := List.getLast?_eq_getLast _ hl
  have hmem : l.getLast hl ∈ l := List.getLast_mem hl
  have h1 : l.getLast hl ≠ 13 := fun e => h (by rw [hlast, e])
  have h2 : l.getLast hl ≠ 10 := fun e => h10 (by rw [← e]; exact hmem)
  simp [h1, h2]

theorem open_lines (lines : List (List Nat)) (E : editorConfig)
    (h : ∀ l ∈ lines, 10 ∉ l ∧ l.getLast? ≠ some 13) :
    ((getlines (lines.map fun l => l ++ [10]).flatten).foldl
      (fun E line => editorInsertRow E E.numrows (stripLineEnd line)) E).rows.map erow.chars
      = E.rows.map erow.chars ++ lines := by
  induction lines generalizing E with
  | nil => simp [getlines]
  | cons l ls ih =>
    have hl := h l (by simp)
    have hls : ∀ l ∈ ls, 10 ∉ l ∧ l.getLast? ≠ some 13 := fun x hx => h x (by simp [hx])
    simp only [List.map_cons, List.flatten_cons, List.append_assoc, List.singleton_append]
    rw [getlines_line _ _ hl.1, List.foldl_cons, ih _ hls, stripLineEnd_line _ hl.2 hl.1,
      editorInsertRow_end]
    simp

theorem editorRowInsertChar_inrange (row : erow) (dirty : Int) (n : Nat) (c : Int)
    (hn : n ≤ row.chars.length) :
    editorRowInsertChar row dirty n c
      = (editorUpdateRow
          { row with chars := row.chars.take n ++ (c % 256).toNat :: row.chars.drop n },
        dirty + 1) := by
  have hg : ¬ ((n : Int) < 0 ∨ (n : Int) > row.size) := by
    simp only [erow.size]; omega
  simp only [editorRowInsertChar, hg, if_false, Int.toNat_ofNat]

theorem editorRowDelChar_inrange (row : erow) (dirty : Int) (n : Nat)
    (hn : n < row.chars.length) :
    editorRowDelChar row dirty n
      = some (editorUpdateRow { row with chars := row.chars.eraseIdx n }, dirty + 1) := by
  have hg : ¬ ((n : Int) < 0 ∨ (n : Int) > row.size) := by
    simp only [erow.size]; omega
  have h0 : ¬ (row.chars.length = 0) := by omega
  have ht : (row.chars.eraseIdx n).take (row.chars.length - 1) = row.chars.eraseIdx n := by
    apply List.take_of_length_le
    rw [List.length_eraseIdx]
    simp [hn]
  simp only [editorRowDelChar, hg, h0, if_false, Int.toNat_ofNat, ht]

/-! ## C1: save / load round trip -/

/-- C1 (as the code has it): for every sequence of lines without a newline
byte and not ending in a carriage return, building the buffer with
`editorInsertRow` at the end, serialising with `editorRowsToString` and loading
the bytes as `editorOpen` does yields rows whose chars are the original lines. -/
theorem C1_round_trip (winrows wincols : Int) (lines : List (List Nat))
    (h : ∀ l ∈ lines, 10 ∉ l ∧ l.getLast? ≠ some 13) :
    (editorOpen (initEditor winrows wincols)
        (editorRowsToString (insertLines (initEditor winrows wincols) lines))).rows.map
      erow.chars = lines := by
  have hs : editorRowsToString (insertLines (initEditor winrows wincols) lines)
      = (lines.map fun l => l ++ [10]).flatten := by
    have hm := insertLines_chars lines (initEditor winrows wincols)
    unfold editorRowsToString
    rw [rowsToString_foldl]
    have : ((insertLines (initEditor winrows wincols) lines).rows.map
        fun row => row.chars ++ [10])
        = ((insertLines (initEditor winrows wincols) lines).rows.map erow.chars).map
            fun l => l ++ [10] := by
      simp [List.map_map, Function.comp]
    rw [this, hm]
    simp [initEditor]
  simp only [editorOpen, hs]
  rw [open_lines lines _ h]
  simp [initEditor]

theorem C1_round_trip_witness :
    (editorOpen (initEditor 24 80)
        (editorRowsToString (insertLines (initEditor 24 80) [[97, 9, 98], [], [13, 49]]))).rows.map
      erow.chars = [[97, 9, 98], [], [13, 49]] :=
  C1_round_trip 24 80 [[97, 9, 98], [], [13, 49]] (by decide)

/-- C1 as stated fails: the single line `"a\r"` has no newline byte, and comes
back from the round trip as `"a"`. -/
theorem C1_round_trip_counterexample :
    (editorOpen (initEditor 24 80)
        (editorRowsToString (insertLines (initEditor 24 80) [[97, 13]]))).rows.map
      erow.chars = [[97]] ∧ [[97]] ≠ [[(97 : Nat), 13]] := by
  decide

/-! ## C2: insert / delete symmetry -/

/-- C2: for every row, every index `0 ≤ i ≤ row.size` and every `c`,
`editorRowInsertChar(row, i, c)` followed by `editorRowDelChar(row, i)` returns
a row with the chars and size it had before, and the dirty counter is larger by
exactly 2. -/
theorem C2_insert_delete_symmetry (row : erow) (dirty i c : Int)
    (h0 : 0 ≤ i) (h1 : i ≤ row.size) :
    ∃ row2, editorRowDelChar (editorRowInsertChar row dirty i c).1
        (editorRowInsertChar row dirty i c).2 i = some (row2, dirty + 2)
      ∧ row2.chars = row.chars ∧ row2.size = row.size := by
  obtain ⟨n, rfl⟩ := Int.eq_ofNat_of_zero_le h0
  have hn : n ≤ row.chars.length := by simpa [erow.size] using h1
  rw [editorRowInsertChar_inrange row dirty n c hn]
  have hlt : n < (editorUpdateRow
      { row with chars := row.chars.take n ++ (c % 256).toNat :: row.chars.drop n }).chars.length := by
    simp [editorUpdateRow_chars]; omega
  rw [editorRowDelChar_inrange _ _ n hlt]
  have he : (row.chars.take n ++ (c % 256).toNat :: row.chars.drop n).eraseIdx n
      = row.chars := by
    have : n = (row.chars.take n).length + 0 := by simp [hn]
    conv_lhs => rw [this]
    rw [List.eraseIdx_append_of_length_le (by simp)]
    simp
  refine ⟨editorUpdateRow row, ?_, rfl, rfl⟩
  simp only [editorUpdateRow_chars, he]
  have : dirty + 1 + 1 = dirty + 2 := by ring
  rw [this]
  rfl

theorem C2_insert_delete_symmetry_witness :
    ∃ row2, editorRowDelChar
        (editorRowInsertChar (editorUpdateRow ⟨[97, 98], [], []⟩) 0 1 120).1
        (editorRowInsertChar (editorUpdateRow ⟨[97, 98], [], []⟩) 0 1 120).2 1
          = some (row2, 0 + 2)
      ∧ row2.chars = (editorUpdateRow ⟨[97, 98], [], []⟩).chars
      ∧ row2.size = (editorUpdateRow ⟨[97, 98], [], []⟩).size :=
  C2_insert_delete_symmetry (editorUpdateRow ⟨[97, 98], [], []⟩) 0 1 120 (by decide) (by decide)

/-! ## coordinate mapper: basic facts -/

theorem advanceRx_gt (c : Nat) (rx : Int) : rx < advanceRx c rx := by
  unfold advanceRx
  split
  · have h := Int.tmod_lt_of_pos (rx + ((KILO_TAB_STOP : Int) - 1))
      (show (0 : Int) < (KILO_TAB_STOP : Int) by decide)
    simp only [KILO_TAB_STOP] at h ⊢
    omega
  · omega

theorem colAfter_snoc (cs : List Nat) (c : Nat) (rx : Int) :
    colAfter (cs ++ [c]) rx = advanceRx c (colAfter cs rx) := by
  simp [colAfter, List.foldl_append]

theorem colAfter_take_succ (cs : List Nat) (k : Nat) (rx : Int) (hk : k < cs.length) :
    colAfter (cs.take k) rx < colAfter (cs.take (k + 1)) rx := by
  rw [List.take_succ, List.getElem?_eq_getElem hk]
  simp only [Option.toList]
  rw [colAfter_snoc]
  exact advanceRx_gt _ _

theorem colAfter_take_mono (cs : List Nat) (rx : Int) (a b : Nat) (hab : a ≤ b)
    (hb : b ≤ cs.length) : colAfter (cs.take a) rx ≤ colAfter (cs.take b) rx := by
  induction b with
  | zero =>
    have : a = 0 := by omega
    subst this; exact le_refl _
  | succ b ih =>
    rcases Nat.eq_or_lt_of_le hab with h | h
    · subst h; exact le_refl _
    · have h1 := ih (by omega) (by omega)
      have h2 := colAfter_take_succ cs b rx (by omega)
      omega

theorem colAfter_take_strict (cs : List Nat) (rx : Int) (a b : Nat) (hab : a < b)
    (hb : b ≤ cs.length) : colAfter (cs.take a) rx < colAfter (cs.take b) rx := by
  have h1 := colAfter_take_succ cs a rx (by omega)
  have h2 := colAfter_take_mono cs rx (a + 1) b (by omega) hb
  omega

theorem renderCoordsLoop_eq (cs : List Nat) (n : Nat) (rx : Int) (hn : n ≤ cs.length) :
    renderCoordsLoop cs n rx = some (colAfter (cs.take n) rx) := by
  induction cs generalizing n rx with
  | nil =>
    have : n = 0 := by simpa using hn
    subst this; simp [renderCoordsLoop, colAfter]
  | cons c cs ih =>
    cases n with
    | zero => simp [renderCoordsLoop, colAfter]
    | succ n =>
      have := ih n (advanceRx c rx) (by simpa using hn)
      simp [renderCoordsLoop, this, colAfter]

theorem rowAt_natCast (E : editorConfig) (r : Nat) : E.rowAt (r : Int) = E.rows[r]? := by
  simp [editorConfig.rowAt]

/-- The column of character index `k` of a row that is in the buffer. -/
theorem renderColumn_eq (E : editorConfig) (cy : Int) (row : erow) (k : Nat)
    (hrow : E.rowAt cy = some row) (hk : k ≤ row.chars.length) :
    renderColumn E cy k = some (colAfter (row.chars.take k) (E.lncolwidth - 1)) := by
  have hr : ({ E with cx := (k : Int), cy := cy } : editorConfig).rowAt cy = some row := hrow
  simp only [renderColumn, editorUpdateRenderCoords, hr, Int.toNat_ofNat,
    renderCoordsLoop_eq row.chars k _ hk, Option.map_some']

/-- What the loop of `editorUpdateDataCoords` returns: the first index whose
column after the advance exceeds the target, or the end of the row. -/
theorem dataCoordsLoop_spec (cs : List Nat) (j : Nat) (rx target : Int) :
    ∃ v, dataCoordsLoop cs j rx target = j + v ∧ v ≤ cs.length
      ∧ (∀ k, k < v → colAfter (cs.take (k + 1)) rx ≤ target)
      ∧ (v < cs.length → target < colAfter (cs.take (v + 1)) rx) := by
  induction cs generalizing j rx with
  | nil => exact ⟨0, by simp [dataCoordsLoop], by simp, by intro k hk; omega, by simp⟩
  | cons c cs ih =>
    by_cases h : advanceRx c rx > target
    · refine ⟨0, by simp [dataCoordsLoop, h], by simp, by intro k hk; omega, ?_⟩
      intro _
      simpa [colAfter] using h
    · obtain ⟨v, hv, hle, hbelow, habove⟩ := ih (j + 1) (advanceRx c rx)
      refine ⟨v + 1, ?_, by simpa using hle, ?_, ?_⟩
      · simp only [dataCoordsLoop, h, if_false, hv]; omega
      · intro k hk
        cases k with
        | zero => simpa [colAfter] using not_lt.mp h
        | succ k =>
          have := hbelow k (by omega)
          simpa [colAfter] using this
      · intro hlt
        have := habove (by simpa using hlt)
        simpa [colAfter] using this

/-- On a target that is the column of index `i`, the loop returns `i`. -/
theorem dataCoordsLoop_colAfter (cs : List Nat) (rx : Int) (i : Nat) (hi : i ≤ cs.length) :
    dataCoordsLoop cs 0 rx (colAfter (cs.take i) rx) = i := by
  obtain ⟨v, hv, hle, hbelow, habove⟩ := dataCoordsLoop_spec cs 0 rx (colAfter (cs.take i) rx)
  rw [hv, Nat.zero_add]
  rcases Nat.lt_trichotomy v i with h | h | h
  · have h1 := habove (by omega)
    have h2 := colAfter_take_mono cs rx (v + 1) i (by omega) hi
    omega
  · exact h
  · have h1 := hbelow i h
    have h2 := colAfter_take_succ cs i rx (by omega)
    omega

/-! ## C3: coordinate inverse law -/

/-- C3: for every row of the buffer and every character index `0 ≤ i ≤ size`,
with `r` the column `editorUpdateRenderCoords` computes for `cx = i` and `v` the
index `editorUpdateDataCoords` computes for `rx = r`, the column computed for
`cx = v` equals `r`. -/
theorem C3_coordinate_inverse (E : editorConfig) (cy : Int) (row : erow) (i : Nat)
    (hrow : E.rowAt cy = some row) (hi : i ≤ row.chars.length) :
    ∃ E1 E2 E3, editorUpdateRenderCoords { E with cx := i, cy := cy } = some E1
      ∧ editorUpdateDataCoords E1 = some E2
      ∧ editorUpdateRenderCoords E2 = some E3
      ∧ E3.rx = E1.rx := by
  have hloop := renderCoordsLoop_eq row.chars i (E.lncolwidth - 1) hi
  have hinv := dataCoordsLoop_colAfter row.chars (E.lncolwidth - 1) i hi
  have hr1 : ({ E with cx := (i : Int), cy := cy } : editorConfig).rowAt cy = some row := hrow
  obtain ⟨r, hr⟩ : ∃ r, r = colAfter (row.chars.take i) (E.lncolwidth - 1) := ⟨_, rfl⟩
  rw [← hr] at hloop hinv
  have hr2 : ({ E with cx := (i : Int), cy := cy, rx := r, ry := cy } : editorConfig).rowAt cy
      = some row := hrow
  refine ⟨{ E with cx := (i : Int), cy := cy, rx := r, ry := cy },
    { E with cx := (i : Int), cy := cy, rx := r, ry := cy },
    { E with cx := (i : Int), cy := cy, rx := r, ry := cy }, ?_, ?_, ?_, rfl⟩
  · simp only [editorUpdateRenderCoords, hr1, Int.toNat_ofNat, hloop, Option.map_some']
  · simp only [editorUpdateDataCoords, hr2, Option.map_some', hinv]
  · simp only [editorUpdateRenderCoords, hr2, Int.toNat_ofNat, hloop, Option.map_some']

theorem C3_coordinate_inverse_witness :
    ∃ E1 E2 E3, editorUpdateRenderCoords
        { insertLines (initEditor 24 80) [[9, 97, 9, 98]] with cx := (3 : Nat), cy := 0 } = some E1
      ∧ editorUpdateDataCoords E1 = some E2
      ∧ editorUpdateRenderCoords E2 = some E3
      ∧ E3.rx = E1.rx :=
  C3_coordinate_inverse (insertLines (initEditor 24 80) [[9, 97, 9, 98]]) 0
    (editorUpdateRow ⟨[9, 97, 9, 98], [], []⟩) 3 (by decide) (by decide)

/-! ## C4: the row `a TAB b` -/

/-- C4: for the row whose chars are `'a'`, TAB, `'b'`, with the gutter column
`g = E.lncolwidth - 1` of `initEditor` (`lncolwidth = 6`), the render columns
computed by `editorUpdateRenderCoords` for character index 0, 1 and 2 are `g`,
`g + 1` and `g + 4`. -/
theorem C4_tab_row_columns (E : editorConfig) (cy : Int) (row : erow)
    (hg : E.lncolwidth = (initEditor 24 80).lncolwidth)
    (hrow : E.rowAt cy = some row) (hchars : row.chars = [97, 9, 98]) :
    renderColumn E cy 0 = some (E.lncolwidth - 1)
      ∧ renderColumn E cy 1 = some (E.lncolwidth - 1 + 1)
      ∧ renderColumn E cy 2 = some (E.lncolwidth - 1 + 4) := by
  have h0 := renderColumn_eq E cy row 0 hrow (by simp)
  have h1 := renderColumn_eq E cy row 1 hrow (by simp [hchars])
  have h2 := renderColumn_eq E cy row 2 hrow (by simp [hchars])
  have hl : E.lncolwidth = 6 := hg
  simp only [Nat.cast_zero, Nat.cast_one, Nat.cast_ofNat] at h0 h1 h2
  rw [h0, h1, h2, hchars, hl]
  decide

theorem C4_tab_row_columns_witness :
    renderColumn (insertLines (initEditor 24 80) [[97, 9, 98]]) 0 0
        = some ((insertLines (initEditor 24 80) [[97, 9, 98]]).lncolwidth - 1)
      ∧ renderColumn (insertLines (initEditor 24 80) [[97, 9, 98]]) 0 1
        = some ((insertLines (initEditor 24 80) [[97, 9, 98]]).lncolwidth - 1 + 1)
      ∧ renderColumn (insertLines (initEditor 24 80) [[97, 9, 98]]) 0 2
        = some ((insertLines (initEditor 24 80) [[97, 9, 98]]).lncolwidth - 1 + 4) :=
  C4_tab_row_columns (insertLines (initEditor 24 80) [[97, 9, 98]]) 0
    (editorUpdateRow ⟨[97, 9, 98], [], []⟩) (by decide) (by decide) (by decide)

/-! ## C5: tie-break of the inverse mapping -/

/-- C5: for every row of the buffer and every target column `rx`,
`editorUpdateDataCoords` sets `cx` to the least index `j < size` whose column
after the advance (the render column of index `j + 1`) is greater than `rx`, and
to `size` when there is none; so when `g ≤ rx < renderColumn(size)` the chosen
`v` has `renderColumn(v) ≤ rx < renderColumn(v + 1)`. -/
theorem C5_inverse_tie_break (E : editorConfig) (row : erow)
    (hrow : E.rowAt E.ry = some row) :
    ∃ (E1 : editorConfig) (v : Nat), editorUpdateDataCoords E = some E1
      ∧ E1.cx = v ∧ E1.cy = E.ry ∧ v ≤ row.chars.length
      ∧ (∀ j : Nat, j < v → ∃ c, renderColumn E E.ry (j + 1 : Nat) = some c ∧ c ≤ E.rx)
      ∧ (v < row.chars.length →
          ∃ c, renderColumn E E.ry (v + 1 : Nat) = some c ∧ E.rx < c)
      ∧ (∀ cend, E.lncolwidth - 1 ≤ E.rx →
          renderColumn E E.ry (row.chars.length : Nat) = some cend → E.rx < cend →
          ∃ a b, renderColumn E E.ry v = some a ∧ renderColumn E E.ry (v + 1 : Nat) = some b
            ∧ a ≤ E.rx ∧ E.rx < b) := by
  obtain ⟨v, hv, hle, hbelow, habove⟩ :=
    dataCoordsLoop_spec row.chars 0 (E.lncolwidth - 1) E.rx
  rw [Nat.zero_add] at hv
  refine ⟨{ E with cx := (v : Int), cy := E.ry }, v, ?_, rfl, rfl, hle, ?_, ?_, ?_⟩
  · simp only [editorUpdateDataCoords, hrow, Option.map_some', hv]
  · intro j hj
    exact ⟨_, renderColumn_eq E E.ry row (j + 1) hrow (by omega), hbelow j hj⟩
  · intro hlt
    exact ⟨_, renderColumn_eq E E.ry row (v + 1) hrow (by omega), habove hlt⟩
  · intro cend hg hend hlt
    rw [renderColumn_eq E E.ry row _ hrow (le_refl _)] at hend
    have hend2 : colAfter (row.chars.take row.chars.length) (E.lncolwidth - 1) = cend := by
      simpa using hend
    have hvlt : v < row.chars.length := by
      rcases Nat.eq_or_lt_of_le hle with h | h
      · exfalso
        cases hlen : row.chars.length with
        | zero =>
          rw [hlen] at hend2
          simp [colAfter] at hend2
          omega
        | succ m =>
          have := hbelow m (by omega)
          rw [hlen] at hend2
          omega
      · exact h
    refine ⟨_, _, renderColumn_eq E E.ry row v hrow hle,
      renderColumn_eq E E.ry row (v + 1) hrow (by omega), ?_, habove hvlt⟩
    cases v with
    | zero => simpa [colAfter] using hg
    | succ k => exact hbelow k (by omega)

theorem C5_inverse_tie_break_witness :
    ∃ (E1 : editorConfig) (v : Nat),
      editorUpdateDataCoords { insertLines (initEditor 24 80) [[97, 9, 98]] with rx := 7 } = some E1
      ∧ E1.cx = v ∧ E1.cy = 0 ∧ v ≤ 3
      ∧ (∀ j : Nat, j < v → ∃ c,
          renderColumn { insertLines (initEditor 24 80) [[97, 9, 98]] with rx := 7 } 0 (j + 1 : Nat)
            = some c ∧ c ≤ 7)
      ∧ (v < 3 → ∃ c,
          renderColumn { insertLines (initEditor 24 80) [[97, 9, 98]] with rx := 7 } 0 (v + 1 : Nat)
            = some c ∧ 7 < c)
      ∧ (∀ cend, (6 : Int) - 1 ≤ 7 →
          renderColumn { insertLines (initEditor 24 80) [[97, 9, 98]] with rx := 7 } 0 (3 : Nat)
            = some cend → 7 < cend →
          ∃ a b,
            renderColumn { insertLines (initEditor 24 80) [[97, 9, 98]] with rx := 7 } 0 v = some a
            ∧ renderColumn { insertLines (initEditor 24 80) [[97, 9, 98]] with rx := 7 } 0
                (v + 1 : Nat) = some b
            ∧ a ≤ 7 ∧ 7 < b) :=
  C5_inverse_tie_break { insertLines (initEditor 24 80) [[97, 9, 98]] with rx := 7 }
    (editorUpdateRow ⟨[97, 9, 98], [], []⟩) (by decide)

/-! ## search: basic facts -/

theorem strstr_none (hay q : List Nat) (h : strstr hay q = none) (o : Nat) :
    ¬ q <+: hay.drop o := by
  induction hay generalizing o with
  | nil =>
    simp only [strstr] at h
    split at h
    · cases h
    · rename_i hq
      simpa using hq
  | cons c cs ih =>
    simp only [strstr] at h
    split at h
    · cases h
    · rename_i hp
      have hn : strstr cs q = none := by simpa using h
      cases o with
      | zero => simpa using hp
      | succ o => simpa using ih hn o

theorem strstr_some (hay q : List Nat) (o : Nat) (h : strstr hay q = some o) :
    q <+: hay.drop o ∧ o ≤ hay.length ∧ ∀ o1, o1 < o → ¬ q <+: hay.drop o1 := by
  induction hay generalizing o with
  | nil =>
    simp only [strstr] at h
    split at h
    · rename_i hq
      injection h with h
      subst h; subst hq
      simp
    · cases h
  | cons c cs ih =>
    simp only [strstr] at h
    split at h
    · rename_i hp
      injection h with h
      subst h
      exact ⟨by simpa using hp, by simp, by intro o1 ho1; omega⟩
    · rename_i hp
      obtain ⟨o2, h2, rfl⟩ := Option.map_eq_some'.mp h
      obtain ⟨ha, hb, hc⟩ := ih o2 h2
      refine ⟨by simpa using ha, by simpa using hb, ?_⟩
      intro o1 ho1
      cases o1 with
      | zero => simpa using hp
      | succ o1 => simpa using hc o1 (by omega)

theorem memset_length (buf : List Nat) (off v n : Nat) (h : off + n ≤ buf.length) :
    (memset buf off v n).length = buf.length := by
  simp [memset]; omega

/-- The loop over one row, entered at an occurrence `off`: it returns, appends
one entry for every occurrence at or after `off`, left to right, and keeps the
length of `hl`. -/
theorem findRowLoop_spec (fuel : Nat) (render q : List Nat) (i g : Int) (hq : q ≠ []) :
    ∀ (off : Nat) (sh : List cords) (hl : List Nat), q <+: render.drop off →
      render.length < fuel + off → render.length ≤ hl.length →
      ∃ (offs : List Nat) (hl1 : List Nat), findRowLoop fuel render q i g off sh hl
          = some (sh ++ offs.map (fun (o : Nat) => ({ x := (o : Int) + g, y := i } : cords)), hl1)
        ∧ hl1.length = hl.length
        ∧ offs.Pairwise (fun a b => a < b)
        ∧ ∀ o, o ∈ offs ↔ off ≤ o ∧ q <+: render.drop o := by
  have hqlen : 0 < q.length := List.length_pos.mpr hq
  induction fuel with
  | zero =>
    intro off sh hl hocc hfuel _
    exfalso
    have hlen := hocc.length_le
    rw [List.length_drop] at hlen
    omega
  | succ fuel ih =>
    intro off sh hl hocc hfuel hhl
    have hlen := hocc.length_le
    rw [List.length_drop] at hlen
    have hoff : ¬ (off + 1 > render.length) := by omega
    have hms : (memset hl off HL_MATCH q.length).length = hl.length :=
      memset_length _ _ _ _ (by omega)
    cases hs : strstr (render.drop (off + 1)) q with
    | none =>
      refine ⟨[off], _, by simp [findRowLoop, hoff, hs], hms, by simp, ?_⟩
      intro o
      constructor
      · intro ho
        simp at ho
        subst ho
        exact ⟨le_refl _, hocc⟩
      · rintro ⟨hle, ho⟩
        rcases Nat.eq_or_lt_of_le hle with h | h
        · simp [h]
        · exfalso
          have hno := strstr_none _ _ hs (o - (off + 1))
          rw [List.drop_drop] at hno
          have e : off + 1 + (o - (off + 1)) = o := by omega
          rw [e] at hno
          exact hno ho
    | some o1 =>
      obtain ⟨h1, h2, h3⟩ := strstr_some _ _ _ hs
      rw [List.drop_drop] at h1
      rw [List.length_drop] at h2
      obtain ⟨offs, hl1, heq, hlen1, hpw, hmem⟩ :=
        ih (off + 1 + o1) (sh ++ [{ x := (off : Int) + g, y := i }])
          (memset hl off HL_MATCH q.length) h1 (by omega) (by omega)
      refine ⟨off :: offs, hl1, ?_, by omega, ?_, ?_⟩
      · simp only [findRowLoop, hoff, if_false, hs, heq]
        simp
      · rw [List.pairwise_cons]
        exact ⟨fun a ha => by have := (hmem a).mp ha; omega, hpw⟩
      · intro o
        rw [List.mem_cons, hmem]
        constructor
        · rintro (h | ⟨h, ho⟩)
          · subst h; exact ⟨le_refl _, hocc⟩
          · exact ⟨by omega, ho⟩
        · rintro ⟨hle, ho⟩
          rcases Nat.eq_or_lt_of_le hle with h | h
          · left; exact h.symm
          · right
            refine ⟨?_, ho⟩
            by_contra hc
            have hno := h3 (o - (off + 1)) (by omega)
            rw [List.drop_drop] at hno
            have e : off + 1 + (o - (off + 1)) = o := by omega
            rw [e] at hno
            exact hno ho

theorem cstr_eq_self (buf : List Nat) (h : 0 ∉ buf) : cstr buf = buf := by
  unfold cstr
  rw [List.takeWhile_eq_self_iff]
  intro x hx
  have : x ≠ 0 := fun e => h (e ▸ hx)
  simpa using this

/-- The loop over the rows: it returns, the entries it appends are one per
occurrence of the query in a render, in strictly ascending (row, column) order,
and copying the saved arrays back gives the rows it started from. -/
theorem findRows_spec (g : Int) (q : List Nat) (hq : q ≠ []) (rows : List erow) :
    ∀ (i : Nat) (sh : List cords) (saved : List saved_hl),
      (∀ row ∈ rows, row.hl.length = row.render.length) →
      ∃ (rows1 : List erow) (sh1 : List cords) (saved1 : List saved_hl),
        findRows rows i g q sh saved = some (rows1, sh ++ sh1, saved ++ saved1)
        ∧ (∀ m, m ∈ sh1 ↔ ∃ (r o : Nat) (row : erow), rows[r]? = some row
              ∧ q <+: (cstr row.render).drop o
              ∧ m = { x := (o : Int) + g, y := ((i + r : Nat) : Int) })
        ∧ sh1.Pairwise cordsLt
        ∧ (∀ pre : List erow, pre.length = i →
              restoreHl (pre ++ rows1) saved1 = some (pre ++ rows))
        ∧ rows1.map erow.chars = rows.map erow.chars
        ∧ rows1.map erow.render = rows.map erow.render := by
  induction rows with
  | nil =>
    intro i sh saved _
    exact ⟨[], [], [], by simp [findRows], by simp, by simp,
      by intro pre _; simp [restoreHl], rfl, rfl⟩
  | cons row rest ih =>
    intro i sh saved hrows
    have hrow := hrows row (by simp)
    have hrest : ∀ r ∈ rest, r.hl.length = r.render.length :=
      fun r hr => hrows r (by simp [hr])
    have hc : (cstr row.render).length ≤ row.render.length :=
      (List.takeWhile_prefix _).length_le
    cases hs : strstr (cstr row.render) q with
    | none =>
      obtain ⟨rows1, sh1, saved1, heq, hmem, hpw, hres, hch, hrd⟩ := ih (i + 1) sh saved hrest
      refine ⟨row :: rows1, sh1, saved1, by simp [findRows, hs, heq], ?_, hpw, ?_,
        by simp [hch], by simp [hrd]⟩
      · intro m
        rw [hmem]
        constructor
        · rintro ⟨r, o, row1, h1, h2, h3⟩
          exact ⟨r + 1, o, row1, by simpa using h1, h2,
            by rw [h3, show i + 1 + r = i + (r + 1) by omega]⟩
        · rintro ⟨r, o, row1, h1, h2, h3⟩
          cases r with
          | zero =>
            exfalso
            simp at h1
            subst h1
            exact strstr_none _ _ hs o h2
          | succ r =>
            exact ⟨r, o, row1, by simpa using h1, h2,
              by rw [h3, show i + 1 + r = i + (r + 1) by omega]⟩
      · intro pre hpre
        have := hres (pre ++ [row]) (by simp [hpre])
        simpa using this
    | some off =>
      obtain ⟨hocc, hoffle, hmin⟩ := strstr_some _ _ _ hs
      obtain ⟨offs, hl1, hloop, hlen1, hpwo, hmemo⟩ :=
        findRowLoop_spec ((cstr row.render).length + 1) (cstr row.render) q (i : Int) g hq off sh
          row.hl hocc (by omega) (by omega)
      obtain ⟨rows1, sh1, saved1, heq, hmem, hpw, hres, hch, hrd⟩ :=
        ih (i + 1) (sh ++ offs.map (fun (o : Nat) => ({ x := (o : Int) + g, y := (i : Int) } : cords)))
          (saved ++ [{ saved_cy := i, saved_hl := row.hl.take row.render.length }]) hrest
      refine ⟨{ row with hl := hl1 } :: rows1,
        offs.map (fun (o : Nat) => ({ x := (o : Int) + g, y := (i : Int) } : cords)) ++ sh1,
        { saved_cy := i, saved_hl := row.hl.take row.render.length } :: saved1, ?_, ?_, ?_, ?_,
        by simp [hch], by simp [hrd]⟩
      · simp [findRows, hs, hloop, heq]
      · intro m
        rw [List.mem_append, hmem]
        constructor
        · rintro (h | ⟨r, o, row1, h1, h2, h3⟩)
          · obtain ⟨o, ho, rfl⟩ := List.mem_map.mp h
            exact ⟨0, o, row, by simp, ((hmemo o).mp ho).2, by simp⟩
          · exact ⟨r + 1, o, row1, by simpa using h1, h2,
              by rw [h3, show i + 1 + r = i + (r + 1) by omega]⟩
        · rintro ⟨r, o, row1, h1, h2, h3⟩
          cases r with
          | zero =>
            left
            simp at h1
            subst h1
            have hle : off ≤ o := by
              by_contra hc2
              exact hmin o (by omega) h2
            exact List.mem_map.mpr ⟨o, (hmemo o).mpr ⟨hle, h2⟩, by rw [h3]; simp⟩
          | succ r =>
            right
            exact ⟨r, o, row1, by simpa using h1, h2,
              by rw [h3, show i + 1 + r = i + (r + 1) by omega]⟩
      · rw [List.pairwise_append]
        refine ⟨?_, hpw, ?_⟩
        · rw [List.pairwise_map]
          exact hpwo.imp (fun {a b} hab => Or.inr ⟨rfl, by simp only; omega⟩)
        · intro a ha b hb
          obtain ⟨o, _, rfl⟩ := List.mem_map.mp ha
          obtain ⟨r, o2, row1, _, _, rfl⟩ := (hmem b).mp hb
          exact Or.inl (by simp only; omega)
      · intro pre hpre
        have hget : (pre ++ { row with hl := hl1 } :: rows1)[i]? = some { row with hl := hl1 } := by
          rw [List.getElem?_append_right (by omega)]
          simp [hpre]
        have hlt : row.render.length ≤ (row.hl.take row.render.length).length := by
          simp; omega
        have htake : (row.hl.take row.render.length).take row.render.length = row.hl := by
          rw [List.take_take]
          simp
          omega
        have hdrop : hl1.drop row.render.length = [] := by
          rw [List.drop_eq_nil_iff]; omega
        have hset : (pre ++ { row with hl := hl1 } :: rows1).set i row = pre ++ row :: rows1 := by
          rw [List.set_append_right _ _ (by omega)]
          simp [hpre]
        have := hres (pre ++ [row]) (by simp [hpre])
        simp only [restoreHl, hget, hlt, if_true, htake, hdrop, List.append_nil]
        rw [hset]
        simpa using this

theorem map_set_same {α β : Type} (f : α → β) (l : List α) (i : Nat) (a b : α)
    (h : l[i]? = some a) (hf : f b = f a) : (l.set i b).map f = l.map f := by
  induction l generalizing i with
  | nil => simp
  | cons x xs ih =>
    cases i with
    | zero =>
      simp at h
      subst h
      simp [hf]
    | succ i =>
      simp at h
      simp [ih i h]

/-- Copying the saved arrays back succeeds when they fit the buffer, and
changes no `chars`, no `render` and no length of `hl`. -/
theorem restoreHl_ok (saved : List saved_hl) :
    ∀ rows : List erow, savedOk rows saved →
      (∀ row ∈ rows, row.hl.length = row.render.length) →
      ∃ rows0, restoreHl rows saved = some rows0
        ∧ rows0.map erow.chars = rows.map erow.chars
        ∧ rows0.map erow.render = rows.map erow.render
        ∧ (∀ row ∈ rows0, row.hl.length = row.render.length) := by
  induction saved with
  | nil =>
    intro rows _ hhl
    exact ⟨rows, rfl, rfl, rfl, hhl⟩
  | cons s rest ih =>
    intro rows hok hhl
    obtain ⟨rd, hrd, hlen⟩ := hok s (by simp)
    rw [List.getElem?_map] at hrd
    obtain ⟨row, hrow, hrr⟩ := Option.map_eq_some'.mp hrd
    subst hrr
    have hmemrow : row ∈ rows := List.mem_iff_getElem?.mpr ⟨_, hrow⟩
    obtain ⟨newrow, hnew⟩ : ∃ newrow : erow, newrow =
        { row with hl := s.saved_hl.take row.render.length ++ row.hl.drop row.render.length } :=
      ⟨_, rfl⟩
    have hrender : (rows.set s.saved_cy newrow).map erow.render = rows.map erow.render :=
      map_set_same _ _ _ row _ hrow (by rw [hnew])
    have hchars : (rows.set s.saved_cy newrow).map erow.chars = rows.map erow.chars :=
      map_set_same _ _ _ row _ hrow (by rw [hnew])
    have hok2 : savedOk (rows.set s.saved_cy newrow) rest := by
      intro s2 hs2
      rw [hrender]
      exact hok s2 (by simp [hs2])
    have hhl2 : ∀ r ∈ rows.set s.saved_cy newrow, r.hl.length = r.render.length := by
      intro r hr
      rcases List.mem_or_eq_of_mem_set hr with h | h
      · exact hhl r h
      · have := hhl row hmemrow
        rw [h, hnew]
        simp
        omega
    obtain ⟨rows0, h0, h1, h2, h3⟩ := ih _ hok2 hhl2
    refine ⟨rows0, ?_, by rw [h1, hchars], by rw [h2, hrender], h3⟩
    simp only [restoreHl, hrow, hlen, if_true, ← hnew, h0]

theorem padTab_no_nul (fuel : Nat) (render : List Nat) (h : 0 ∉ render) :
    0 ∉ padTab fuel render := by
  induction fuel generalizing render with
  | zero => simpa [padTab] using h
  | succ fuel ih =>
    simp only [padTab]
    split
    · exact ih _ (by simp [h])
    · exact h

theorem renderLoop_no_nul (cs render : List Nat) (hcs : 0 ∉ cs) (h : 0 ∉ render) :
    0 ∉ renderLoop cs render := by
  induction cs generalizing render with
  | nil => simpa [renderLoop] using h
  | cons c cs ih =>
    have hc : (0 : Nat) ≠ c := fun e => hcs (by simp [e])
    have hcs2 : 0 ∉ cs := fun e => hcs (by simp [e])
    simp only [renderLoop]
    split
    · exact ih _ hcs2 (padTab_no_nul _ _ (by simp [h]))
    · exact ih _ hcs2 (by simp [h, hc])

/-- What the scan of `editorFindMoveToMatch` returns when some entry lies after
the cursor: the index of the first such entry. -/
theorem findScan_some (sh : List cords) (ry rx : Int) (i : Nat)
    (h : ∃ m ∈ sh, cursorBefore ry rx m) :
    ∃ (i0 : Nat) (m : cords), findScan sh ry rx i = some (i + i0) ∧ sh[i0]? = some m
      ∧ cursorBefore ry rx m
      ∧ ∀ (j : Nat) (mj : cords), j < i0 → sh[j]? = some mj → ¬ cursorBefore ry rx mj := by
  induction sh generalizing i with
  | nil =>
    obtain ⟨m, hm, _⟩ := h
    simp at hm
  | cons a rest ih =>
    by_cases ha : a.y < ry ∨ (a.y = ry ∧ a.x ≤ rx)
    · have hrest : ∃ m ∈ rest, cursorBefore ry rx m := by
        obtain ⟨m, hm, hb⟩ := h
        rcases List.mem_cons.mp hm with e | e
        · subst e
          exact absurd ha hb
        · exact ⟨m, e, hb⟩
      obtain ⟨i0, m, h1, h2, h3, h4⟩ := ih (i + 1) hrest
      refine ⟨i0 + 1, m, ?_, by simpa using h2, h3, ?_⟩
      · simp only [findScan, ha, if_true, h1]
        congr 1
        omega
      · intro j mj hj hget
        cases j with
        | zero =>
          simp at hget
          subst hget
          exact fun hb => hb ha
        | succ j => exact h4 j mj (by omega) (by simpa using hget)
    · refine ⟨0, a, by simp [findScan, ha], by simp, ha, ?_⟩
      intro j mj hj
      omega

theorem editorUpdateDataCoords_frame (E E1 : editorConfig)
    (h : editorUpdateDataCoords E = some E1) :
    E1.searchhistory = E.searchhistory ∧ E1.rows = E.rows ∧ E1.rx = E.rx ∧ E1.ry = E.ry
      ∧ E1.lncolwidth = E.lncolwidth ∧ E1.cy = E.ry := by
  unfold editorUpdateDataCoords at h
  obtain ⟨row, _, rfl⟩ := Option.map_eq_some'.mp h
  exact ⟨rfl, rfl, rfl, rfl, rfl, rfl⟩

theorem editorFindMoveToMatch_frame (E E1 : editorConfig) (off : Int)
    (h : editorFindMoveToMatch E off = some E1) :
    E1.searchhistory = E.searchhistory ∧ E1.rows = E.rows := by
  unfold editorFindMoveToMatch at h
  split at h
  · injection h with h
    subst h
    exact ⟨rfl, rfl⟩
  · split at h
    · cases h
    · simp only at h
      split at h
      · cases h
      · split at h
        · cases h
        · split at h
          · cases h
          · rename_i E2 hE2
            injection h with h
            subst h
            obtain ⟨h1, h2, _⟩ := editorUpdateDataCoords_frame _ _ hE2
            exact ⟨h1, h2⟩

theorem findJump_frame (E E1 : editorConfig) (h : findJump E = some E1) :
    E1.searchhistory = E.searchhistory ∧ E1.rows = E.rows := by
  unfold findJump at h
  split at h
  · split at h
    · cases h
    · rename_i E2 hE2
      split at h
      · cases h
      · rename_i E3 hE3
        injection h with h
        subst h
        obtain ⟨h1, h2, _⟩ := editorUpdateDataCoords_frame _ _ hE2
        obtain ⟨h3, h4⟩ := editorFindMoveToMatch_frame _ _ _ hE3
        exact ⟨by simp only [h3, h1], by simp only [h4, h2]⟩
  · injection h with h
    subst h
    exact ⟨rfl, rfl⟩

/-- The result of `editorFindMoveToMatch(off)` when the scan stops at `i0` and the selected
index `k` holds a match on a row of the buffer. -/
theorem editorFindMoveToMatch_spec (E : editorConfig) (off : Int) (i0 k : Nat) (m : cords)
    (row : erow) (hne : E.searchhistory ≠ [])
    (hscan : findScan E.searchhistory E.ry E.rx 0 = some i0)
    (hk : ((i0 : Int) + off + E.sh_len).tmod E.sh_len = k)
    (hm : E.searchhistory[k]? = some m) (hrow : E.rowAt m.y = some row) :
    ∃ E1, editorFindMoveToMatch E off = some E1 ∧ E1.rx = m.x ∧ E1.ry = m.y
      ∧ E1.searchhistory = E.searchhistory ∧ E1.rows = E.rows
      ∧ E1.lncolwidth = E.lncolwidth := by
  have hlen : ¬ (E.sh_len = 0) := by
    simp [editorConfig.sh_len, hne]
  have hk0 : ¬ ((k : Int) < 0) := by omega
  have hr : ({ E with rx := m.x, ry := m.y } : editorConfig).rowAt m.y = some row := hrow
  simp only [editorFindMoveToMatch, hlen, if_false, hscan, hk, hk0, Int.toNat_ofNat, hm,
    editorUpdateDataCoords, hr, Option.map_some']
  exact ⟨_, rfl, rfl, rfl, rfl, rfl, rfl⟩

theorem rowAt_some_of_lt (E : editorConfig) (r : Nat) (h : r < E.rows.length) :
    ∃ row, E.rowAt (r : Int) = some row := by
  rw [rowAt_natCast]
  exact ⟨E.rows[r], List.getElem?_eq_getElem h⟩

theorem rowAt_lt (E : editorConfig) (i : Int) (row : erow) (h : E.rowAt i = some row) :
    ∃ r : Nat, i = r ∧ r < E.rows.length := by
  unfold editorConfig.rowAt at h
  split at h
  · rename_i hi
    obtain ⟨hlt, _⟩ := List.getElem?_eq_some_iff.mp h
    exact ⟨i.toNat, (Int.toNat_of_nonneg hi).symm, hlt⟩
  · cases h

theorem render_transfer (l1 l2 : List erow) (h : l1.map erow.render = l2.map erow.render)
    (r : Nat) (row1 : erow) (h1 : l1[r]? = some row1) :
    ∃ row2, l2[r]? = some row2 ∧ row2.render = row1.render := by
  have h2 : (l2.map erow.render)[r]? = some row1.render := by
    rw [← h, List.getElem?_map, h1]
    rfl
  rw [List.getElem?_map] at h2
  obtain ⟨row2, h3, h4⟩ := Option.map_eq_some'.mp h2
  exact ⟨row2, h3, h4⟩

theorem cordsLt_ne (a b : cords) (h : cordsLt a b) : a ≠ b := by
  intro e
  subst e
  rcases h with h | ⟨_, h⟩ <;> omega

/-- One pass of `editorFindCallback` with a key other than Enter and Escape: the
saved arrays are copied back, the rows are scanned, and the function ends with
the jump block. -/
theorem editorFindCallback_pass (E : editorConfig) (saved : List saved_hl) (query : List Nat)
    (key : Int) (hkey : key ≠ 13 ∧ key ≠ 27) (hq : query ≠ [])
    (hrows : ∀ row ∈ E.rows, row.hl.length = row.render.length)
    (hsaved : savedOk E.rows saved) :
    ∃ (rows0 rows1 : List erow) (sh : List cords) (saved1 : List saved_hl),
      restoreHl E.rows saved = some rows0
      ∧ findRows rows0 0 (E.lncolwidth - 1) query [] [] = some (rows1, sh, saved1)
      ∧ editorFindCallback E saved query key
          = (findJump { E with rows := rows1, searchhistory := sh }).map
              (fun E1 => (E1, saved1))
      ∧ (∀ m, m ∈ sh ↔ ∃ (r o : Nat) (row : erow), E.rows[r]? = some row
            ∧ query <+: (cstr row.render).drop o
            ∧ m = { x := (o : Int) + (E.lncolwidth - 1), y := (r : Int) })
      ∧ sh.Pairwise cordsLt
      ∧ restoreHl rows1 saved1 = some rows0
      ∧ rows1.map erow.chars = E.rows.map erow.chars
      ∧ rows1.map erow.render = E.rows.map erow.render := by
  obtain ⟨rows0, hres0, hch0, hrd0, hhl0⟩ :=
    restoreHl_ok saved E.rows hsaved hrows
  obtain ⟨rows1, sh1, saved1, heq, hmem, hpw, hres, hch, hrd⟩ :=
    findRows_spec (E.lncolwidth - 1) query hq rows0 0 [] [] hhl0
  simp only [List.nil_append] at heq
  have hk : ¬ (key = 13 ∨ key = 27) := by
    rintro (h | h)
    · exact hkey.1 h
    · exact hkey.2 h
  refine ⟨rows0, rows1, sh1, saved1, hres0, heq, ?_, ?_, hpw, ?_, by rw [hch, hch0],
    by rw [hrd, hrd0]⟩
  · simp only [editorFindCallback, hk, if_false, hres0, heq]
  · intro m
    rw [hmem]
    constructor
    · rintro ⟨r, o, row, h1, h2, h3⟩
      obtain ⟨row2, h4, h5⟩ := render_transfer rows0 E.rows hrd0 r row h1
      exact ⟨r, o, row2, h4, by rw [h5]; exact h2, by rw [h3]; simp⟩
    · rintro ⟨r, o, row, h1, h2, h3⟩
      obtain ⟨row2, h4, h5⟩ := render_transfer E.rows rows0 hrd0.symm r row h1
      exact ⟨r, o, row2, h4, by rw [h5]; exact h2, by rw [h3]; simp⟩
  · simpa using hres [] rfl

/-! ## C6: the search match list -/

/-- C6: for every buffer whose rows have no NUL byte and every non-empty query,
the match list `editorFindCallback` builds has exactly one entry
`(x = o + g, y = r)` for every row `r` and every offset `o` at which the query
occurs in the render of row `r` (overlapping occurrences included) and no other
entry, in strictly ascending (row, column) order, with `g = E.lncolwidth - 1`.
The loop over the rows always returns with this list, the jump block that
follows it does not change it, and the function returns when there is no
match, or when the cursor row is in the buffer and some match lies after the
cursor. -/
theorem C6_search_match_list (E : editorConfig) (saved : List saved_hl) (query : List Nat)
    (key : Int) (hkey : key ≠ 13 ∧ key ≠ 27) (hq : query ≠ [])
    (hrows : ∀ row ∈ E.rows, 0 ∉ row.chars ∧ row.render = renderLoop row.chars []
      ∧ row.hl.length = row.render.length)
    (hsaved : savedOk E.rows saved) :
    ∃ sh : List cords,
      (∀ m, m ∈ sh ↔ ∃ (r o : Nat) (row : erow), E.rows[r]? = some row
            ∧ query <+: row.render.drop o
            ∧ m = { x := (o : Int) + (E.lncolwidth - 1), y := (r : Int) })
      ∧ sh.Pairwise cordsLt ∧ sh.Nodup
      ∧ (∃ rows0 rows1 saved1, restoreHl E.rows saved = some rows0
            ∧ findRows rows0 0 (E.lncolwidth - 1) query [] [] = some (rows1, sh, saved1))
      ∧ (∀ E1 saved1, editorFindCallback E saved query key = some (E1, saved1) →
            E1.searchhistory = sh)
      ∧ ((sh = [] ∨ ((∃ row, E.rowAt E.ry = some row) ∧ ∃ m ∈ sh, cursorBefore E.ry E.rx m)) →
            ∃ E1 saved1, editorFindCallback E saved query key = some (E1, saved1)) := by
  have hnul : ∀ row ∈ E.rows, cstr row.render = row.render := by
    intro row hr
    obtain ⟨h1, h2, _⟩ := hrows row hr
    exact cstr_eq_self _ (by rw [h2]; exact renderLoop_no_nul _ _ h1 (by simp))
  obtain ⟨rows0, rows1, sh, saved1, hres0, hfind, hcb, hmem0, hpw, _, hch, _⟩ :=
    editorFindCallback_pass E saved query key hkey hq (fun row hr => (hrows row hr).2.2) hsaved
  have hmem : ∀ m, m ∈ sh ↔ ∃ (r o : Nat) (row : erow), E.rows[r]? = some row
      ∧ query <+: row.render.drop o
      ∧ m = { x := (o : Int) + (E.lncolwidth - 1), y := (r : Int) } := by
    intro m
    rw [hmem0]
    constructor
    · rintro ⟨r, o, row, h1, h2, h3⟩
      exact ⟨r, o, row, h1, by rwa [hnul row (List.mem_iff_getElem?.mpr ⟨r, h1⟩)] at h2, h3⟩
    · rintro ⟨r, o, row, h1, h2, h3⟩
      exact ⟨r, o, row, h1, by rwa [hnul row (List.mem_iff_getElem?.mpr ⟨r, h1⟩)], h3⟩
  refine ⟨sh, hmem, hpw, hpw.imp (fun {a b} h => cordsLt_ne a b h),
    ⟨rows0, rows1, saved1, hres0, hfind⟩, ?_, ?_⟩
  · intro E1 s1 h
    rw [hcb] at h
    obtain ⟨E2, h2, h3⟩ := Option.map_eq_some'.mp h
    injection h3 with h3 _
    subst h3
    exact (findJump_frame _ _ h2).1
  · intro hdef
    rw [hcb]
    have hlen1 : rows1.length = E.rows.length := by
      have := congrArg List.length hch
      simpa using this
    rcases hdef with h | ⟨⟨row, hrow⟩, m, hm, hbefore⟩
    · subst h
      exact ⟨{ E with rows := rows1, searchhistory := [] }, saved1, by simp [findJump]⟩
    · have hne : sh ≠ [] := List.ne_nil_of_mem hm
      have hlen : sh.length ≠ 0 := by simpa using hne
      obtain ⟨ry, hry, hrylt⟩ := rowAt_lt E E.ry row hrow
      obtain ⟨row1, hrow1⟩ := rowAt_some_of_lt { E with rows := rows1, searchhistory := sh } ry
        (by simpa [hlen1] using hrylt)
      rw [← hry] at hrow1
      obtain ⟨i0, m0, hscan, hget, _, _⟩ := findScan_some sh E.ry E.rx 0 ⟨m, hm, hbefore⟩
      rw [Nat.zero_add] at hscan
      have hi0 : i0 < sh.length := (List.getElem?_eq_some_iff.mp hget).1
      obtain ⟨r, o, rowm, hr1, _, hr3⟩ := (hmem m0).mp (List.mem_iff_getElem?.mpr ⟨i0, hget⟩)
      have hrlt : r < E.rows.length := (List.getElem?_eq_some_iff.mp hr1).1
      obtain ⟨cx1, hcx1⟩ : ∃ cx1 : Int,
          cx1 = (dataCoordsLoop row1.chars 0 (E.lncolwidth - 1) E.rx : Nat) := ⟨_, rfl⟩
      obtain ⟨E2, hE2⟩ : ∃ E2, E2 =
          ({ E with rows := rows1, searchhistory := sh, cx := cx1, cy := E.ry } : editorConfig) :=
        ⟨_, rfl⟩
      have hdc : editorUpdateDataCoords { E with rows := rows1, searchhistory := sh }
          = some E2 := by
        simp only [editorUpdateDataCoords, hrow1, Option.map_some', hE2, hcx1]
      obtain ⟨rowm1, hrowm1⟩ := rowAt_some_of_lt E2 r (by rw [hE2]; simpa [hlen1] using hrlt)
      have hmy : m0.y = (r : Int) := by rw [hr3]
      rw [← hmy] at hrowm1
      have hk : ((i0 : Int) + 0 + E2.sh_len).tmod E2.sh_len = i0 := by
        have e : E2.sh_len = (sh.length : Int) := by rw [hE2]; rfl
        rw [e, Int.tmod_eq_emod (by omega) (by omega), Int.add_zero, Int.add_emod_self,
          Int.emod_eq_of_lt (by omega) (by omega)]
      obtain ⟨E3, hE3, _⟩ := editorFindMoveToMatch_spec E2 0 i0 i0 m0 rowm1
        (by rw [hE2]; exact hne) (by rw [hE2]; exact hscan) hk (by rw [hE2]; exact hget) hrowm1
      have hj : ∃ E4, findJump { E with rows := rows1, searchhistory := sh } = some E4 := by
        simp only [findJump, hlen, ne_eq, not_false_eq_true, if_true, hdc, hE3]
        exact ⟨_, rfl⟩
      obtain ⟨E4, hE4⟩ := hj
      exact ⟨E4, saved1, by rw [hE4]; rfl⟩

theorem C6_search_match_list_witness :
    ∃ sh : List cords,
      (∀ m, m ∈ sh ↔ ∃ (r o : Nat) (row : erow), aaaBuffer.rows[r]? = some row
            ∧ ([97, 97] : List Nat) <+: row.render.drop o
            ∧ m = { x := (o : Int) + (aaaBuffer.lncolwidth - 1), y := (r : Int) })
      ∧ sh.Pairwise cordsLt ∧ sh.Nodup
      ∧ (∃ rows0 rows1 saved1, restoreHl aaaBuffer.rows [] = some rows0
            ∧ findRows rows0 0 (aaaBuffer.lncolwidth - 1) [97, 97] [] [] = some (rows1, sh, saved1))
      ∧ (∀ E1 saved1, editorFindCallback aaaBuffer [] [97, 97] 97 = some (E1, saved1) →
            E1.searchhistory = sh)
      ∧ ((sh = [] ∨ ((∃ row, aaaBuffer.rowAt aaaBuffer.ry = some row)
              ∧ ∃ m ∈ sh, cursorBefore aaaBuffer.ry aaaBuffer.rx m)) →
            ∃ E1 saved1, editorFindCallback aaaBuffer [] [97, 97] 97 = some (E1, saved1)) :=
  C6_search_match_list aaaBuffer [] [97, 97] 97 (by decide) (by decide) (by decide)
    (by intro s hs; cases hs)

/-! ## C7: the rows `"xaby"`, `"ababab"` and the query `"ab"` -/

/-- C7 (as the code has it): for the query `"ab"` against the rows `"xaby"` and
`"ababab"` the match list built by `editorFindCallback` has exactly 4 entries:
one in row 0 at render offset 1 and three in row 1 at render offsets 0, 2 and 4,
row 0 first and row 1 by ascending column (`g = 5`). -/
theorem C7_search_example :
    (editorFindCallback abBuffer [] [97, 98] 98).map (fun res => res.1.searchhistory)
      = some [{ x := 1 + 5, y := 0 }, { x := 0 + 5, y := 1 }, { x := 2 + 5, y := 1 },
          { x := 4 + 5, y := 1 }] := by
  decide

/-- C7 as stated fails: the match list has 4 entries, not 3 (`"ababab"` holds
`"ab"` at offsets 0, 2 and 4). -/
theorem C7_search_example_counterexample :
    (editorFindCallback abBuffer [] [97, 98] 98).map (fun res => res.1.searchhistory.length)
      = some 4
    ∧ (editorFindCallback abBuffer [] [97, 98] 98).map (fun res => res.1.searchhistory.length)
      ≠ some 3 := by
  decide

/-! ## C8: highlight after a cancelled search -/

/-- C8 as stated fails: on the row `"a55"`, whose highlight array is the
classification of its render, the search for `"5"` ended by Escape leaves the
tags `Normal, Match, Match`, not `Normal, Number, Number`. -/
theorem C8_highlight_after_cancel_counterexample :
    digitBuffer.rows.map erow.hl = digitBuffer.rows.map (fun row => (editorUpdateSyntax row).hl)
    ∧ (editorFind digitBuffer [] [53, 27]).map (fun res => res.1.rows.map erow.hl)
      = some [[HL_NORMAL, HL_MATCH, HL_MATCH]]
    ∧ digitBuffer.rows.map (fun row => (editorUpdateSyntax row).hl)
      = [[HL_NORMAL, HL_NUMBER, HL_NUMBER]] := by
  decide

/-- C8 (as the code has it): for every buffer in which every row's highlight
array is the classification of its render (and the saved arrays, if any, agree
with it) and every non-empty query, when the search returns, the callback
invoked with Escape changes nothing and the cancel branch of `editorFind`
changes no row, so every row keeps the highlight array the search left; the
arrays the search saved are the classification, and copying them back, as the
next query pass does first, gives every row its highlight array of before the
search. -/
theorem C8_highlight_after_cancel (E : editorConfig) (saved : List saved_hl)
    (query : List Nat) (key : Int) (hkey : key ≠ 13 ∧ key ≠ 27) (hq : query ≠ [])
    (hrows : ∀ row ∈ E.rows, row.hl = (editorUpdateSyntax row).hl)
    (hsaved : savedOk E.rows saved) (hsame : restoreHl E.rows saved = some E.rows)
    (hret : (editorFindCallback E saved query key).isSome) :
    ∃ E1 saved1, editorFindCallback E saved query key = some (E1, saved1)
      ∧ editorFindCallback E1 saved1 query 27 = some (E1, saved1)
      ∧ (∀ E0, (editorFindCancel E0 E1).rows = E1.rows)
      ∧ restoreHl E1.rows saved1 = some E.rows
      ∧ (∀ rows2, restoreHl E1.rows saved1 = some rows2 →
          ∀ row ∈ rows2, row.hl = (editorUpdateSyntax row).hl) := by
  have hlen : ∀ row ∈ E.rows, row.hl.length = row.render.length := by
    intro row hr
    rw [hrows row hr]
    simp [editorUpdateSyntax]
  obtain ⟨rows0, rows1, sh, saved1, hres0, _, hcb, _, _, hres1, _, _⟩ :=
    editorFindCallback_pass E saved query key hkey hq hlen hsaved
  have h0 : rows0 = E.rows := by
    rw [hsame] at hres0
    injection hres0 with h
    exact h.symm
  subst h0
  obtain ⟨res, hres⟩ := Option.isSome_iff_exists.mp hret
  have hres2 := hres
  rw [hcb] at hres2
  obtain ⟨E1, hE1, hpair⟩ := Option.map_eq_some'.mp hres2
  have hrows1 : E1.rows = rows1 := (findJump_frame _ _ hE1).2
  refine ⟨E1, saved1, by rw [hres, ← hpair], by simp [editorFindCallback], fun _ => rfl, ?_, ?_⟩
  · rw [hrows1]
    exact hres1
  · intro rows2 h2 row hr
    rw [hrows1, hres1] at h2
    injection h2 with h2
    subst h2
    exact hrows row hr

theorem C8_highlight_after_cancel_witness :
    ∃ E1 saved1, editorFindCallback digitBuffer [] [53] 53 = some (E1, saved1)
      ∧ editorFindCallback E1 saved1 [53] 27 = some (E1, saved1)
      ∧ (∀ E0, (editorFindCancel E0 E1).rows = E1.rows)
      ∧ restoreHl E1.rows saved1 = some digitBuffer.rows
      ∧ (∀ rows2, restoreHl E1.rows saved1 = some rows2 →
          ∀ row ∈ rows2, row.hl = (editorUpdateSyntax row).hl) :=
  C8_highlight_after_cancel digitBuffer [] [53] 53 (by decide) (by decide) (by decide)
    (by intro s hs; cases hs) (by decide) (by decide)

/-! ## navigation between matches: basic facts -/

theorem findMoveIter_succ (off : Int) (k : Nat) (E : editorConfig) :
    findMoveIter off (k + 1) E
      = (findMoveIter off k E).bind fun E1 => editorFindMoveToMatch E1 off := by
  induction k generalizing E with
  | zero =>
    simp only [findMoveIter, Option.some_bind]
    cases editorFindMoveToMatch E off <;> rfl
  | succ k ih =>
    rw [findMoveIter]
    cases h : editorFindMoveToMatch E off with
    | none => simp [findMoveIter, h]
    | some E1 =>
      simp only [ih E1]
      conv_rhs => rw [findMoveIter, h]

theorem findScan_eq (sh : List cords) (ry rx : Int) (t : Nat) (m : cords)
    (hm : sh[t]? = some m) (hb : cursorBefore ry rx m)
    (hskip : ∀ (j : Nat) (mj : cords), j < t → sh[j]? = some mj → ¬ cursorBefore ry rx mj) :
    findScan sh ry rx 0 = some t := by
  obtain ⟨i0, m0, h1, h2, h3, h4⟩ :=
    findScan_some sh ry rx 0 ⟨m, List.mem_iff_getElem?.mpr ⟨t, hm⟩, hb⟩
  rw [Nat.zero_add] at h1
  rcases Nat.lt_trichotomy i0 t with h | h | h
  · exact absurd h3 (hskip i0 m0 h h2)
  · rw [h1, h]
  · exact absurd hb (h4 t m h hm)

theorem cordsLt_cursorBefore (a b : cords) (h : cordsLt a b) : cursorBefore a.y a.x b := by
  unfold cursorBefore
  rcases h with h | ⟨h1, h2⟩ <;> omega

theorem cordsLt_not_cursorBefore (a b : cords) (h : cordsLt a b) : ¬ cursorBefore b.y b.x a := by
  unfold cursorBefore
  rcases h with h | ⟨h1, h2⟩ <;> omega

theorem not_cursorBefore_self (a : cords) : ¬ cursorBefore a.y a.x a := by
  unfold cursorBefore
  omega

theorem rowAt_congr (E E1 : editorConfig) (h : E1.rows = E.rows) (i : Int) :
    E1.rowAt i = E.rowAt i := by
  simp only [editorConfig.rowAt, h]

theorem tmod_index (i n : Nat) (h : i < n) : ((i : Int) + 0 + (n : Int)).tmod (n : Int) = i := by
  rw [Int.tmod_eq_emod (by omega) (by omega), Int.add_zero, Int.add_emod_self,
    Int.emod_eq_of_lt (by omega) (by omega)]

/-- With the cursor exactly on match `j` of a strictly ascending list, the scan
stops at index `j + 1`. -/
theorem findScan_at_match (sh : List cords) (hs : sh.Pairwise cordsLt) (j : Nat) (a b : cords)
    (ha : sh[j]? = some a) (hb : sh[j + 1]? = some b) :
    findScan sh a.y a.x 0 = some (j + 1) := by
  rw [List.pairwise_iff_getElem] at hs
  obtain ⟨hja, haeq⟩ := List.getElem?_eq_some_iff.mp ha
  obtain ⟨hjb, hbeq⟩ := List.getElem?_eq_some_iff.mp hb
  apply findScan_eq sh a.y a.x (j + 1) b hb
  · have := hs j (j + 1) hja hjb (by omega)
    rw [haeq, hbeq] at this
    exact cordsLt_cursorBefore a b this
  · intro i mi hi hmi
    obtain ⟨hil, hieq⟩ := List.getElem?_eq_some_iff.mp hmi
    rcases Nat.eq_or_lt_of_le (Nat.le_of_lt_succ hi) with h | h
    · subst h
      rw [haeq] at hieq
      subst hieq
      exact not_cursorBefore_self _
    · have := hs i j hil hja h
      rw [hieq, haeq] at this
      exact cordsLt_not_cursorBefore mi a this

theorem rowAt_some_of_range (E : editorConfig) (i : Int) (h0 : 0 ≤ i) (h1 : i < E.numrows) :
    ∃ row, E.rowAt i = some row := by
  obtain ⟨n, rfl⟩ := Int.eq_ofNat_of_zero_le h0
  exact rowAt_some_of_lt E n (by simpa [editorConfig.numrows] using h1)

/-! ## C9: forward navigation -/

/-- C9 as stated fails: with the three matches `(6,0)`, `(5,1)`, `(7,1)` and the
cursor at `(5,0)`, before all of them, the first call of
`editorFindMoveToMatch(+1)` puts the cursor on match 1, not match 0; the calls
after it visit match 0 and match 2, and the fourth has no defined result. -/
theorem C9_forward_navigation_counterexample :
    (∀ m ∈ (threeMatches 5 0).searchhistory, cursorBefore 0 5 m)
    ∧ (findMoveIter 1 1 (threeMatches 5 0)).map (fun E => (E.rx, E.ry)) = some (5, 1)
    ∧ (findMoveIter 1 2 (threeMatches 5 0)).map (fun E => (E.rx, E.ry)) = some (6, 0)
    ∧ (findMoveIter 1 3 (threeMatches 5 0)).map (fun E => (E.rx, E.ry)) = some (7, 1)
    ∧ findMoveIter 1 4 (threeMatches 5 0) = none := by
  decide

/-- C9 (as the code has it): for every match list of `n ≥ 1` entries in strictly
ascending (row, column) order on rows of the buffer and a cursor whose render
position is before every match, the `k`-th successive call of
`editorFindMoveToMatch(0)`, the call the key `n` makes, for `k = 1, …, n` puts the
cursor's render coordinates on match `k - 1`: the matches are visited in the
order 0, 1, …, n - 1.  The calls change neither the match list nor the rows. -/
theorem C9_forward_navigation (E : editorConfig) (hs : E.searchhistory.Pairwise cordsLt)
    (hrowsOk : ∀ m ∈ E.searchhistory, 0 ≤ m.y ∧ m.y < E.numrows)
    (hcur : ∀ m ∈ E.searchhistory, cursorBefore E.ry E.rx m) (k : Nat) :
    1 ≤ k → k ≤ E.searchhistory.length →
    ∃ E1 m, findMoveIter 0 k E = some E1 ∧ E.searchhistory[k - 1]? = some m
      ∧ E1.rx = m.x ∧ E1.ry = m.y ∧ E1.searchhistory = E.searchhistory
      ∧ E1.rows = E.rows := by
  induction k with
  | zero => intro h; omega
  | succ k ih =>
    intro _ hk
    have hne : E.searchhistory ≠ [] := by
      intro e
      rw [e] at hk
      simp at hk
    obtain ⟨m, hm⟩ : ∃ m, E.searchhistory[k]? = some m :=
      ⟨E.searchhistory[k], List.getElem?_eq_getElem (by omega)⟩
    have hmem : m ∈ E.searchhistory := List.mem_iff_getElem?.mpr ⟨k, hm⟩
    obtain ⟨row, hrow⟩ := rowAt_some_of_range E m.y (hrowsOk m hmem).1 (hrowsOk m hmem).2
    rw [findMoveIter_succ]
    rcases Nat.eq_zero_or_pos k with h0 | hpos
    · subst h0
      have hscan : findScan E.searchhistory E.ry E.rx 0 = some 0 :=
        findScan_eq _ _ _ 0 m hm (hcur m hmem) (by intro j mj hj; omega)
      obtain ⟨E1, h1, h2, h3, h4, h5, _⟩ := editorFindMoveToMatch_spec E 0 0 0 m row hne hscan
        (tmod_index 0 _ (by omega)) hm hrow
      exact ⟨E1, m, by simp [findMoveIter, h1], hm, h2, h3, h4, h5⟩
    · obtain ⟨E1, m1, h1, h2, h3, h4, h5, h6⟩ := ih (by omega) (by omega)
      have hk1 : k - 1 + 1 = k := by omega
      have hm2 : E.searchhistory[k - 1 + 1]? = some m := by rw [hk1]; exact hm
      have hscan : findScan E1.searchhistory E1.ry E1.rx 0 = some k := by
        rw [h5, h3, h4]
        have := findScan_at_match E.searchhistory hs (k - 1) m1 m h2 hm2
        rw [hk1] at this
        exact this
      have hrow1 : E1.rowAt m.y = some row := by rw [rowAt_congr E E1 h6]; exact hrow
      have hidx : ((k : Int) + 0 + E1.sh_len).tmod E1.sh_len = k := by
        have e : E1.sh_len = (E.searchhistory.length : Int) := by
          simp only [editorConfig.sh_len, h5]
        rw [e]
        exact tmod_index k _ (by omega)
      obtain ⟨E2, g1, g2, g3, g4, g5, _⟩ := editorFindMoveToMatch_spec E1 0 k k m row
        (by rw [h5]; exact hne) hscan hidx (by rw [h5]; exact hm) hrow1
      refine ⟨E2, m, by simp [h1, g1], by simpa using hm, g2, g3, by rw [g4, h5],
        by rw [g5, h6]⟩

theorem C9_forward_navigation_witness :
    ∃ E1 m, findMoveIter 0 3 (threeMatches 5 0) = some E1
      ∧ (threeMatches 5 0).searchhistory[3 - 1]? = some m
      ∧ E1.rx = m.x ∧ E1.ry = m.y ∧ E1.searchhistory = (threeMatches 5 0).searchhistory
      ∧ E1.rows = (threeMatches 5 0).rows :=
  C9_forward_navigation (threeMatches 5 0) (by decide) (by decide) (by decide) 3 (by decide)
    (by decide)

/-! ## C10: backward navigation -/

/-- With the cursor exactly on match `k` of a strictly ascending list and a match
`k + 1` after it, `editorFindMoveToMatch(-1)` selects match `k` again: the cursor
stays where it is. -/
theorem findMove_back_stays (E : editorConfig) (hs : E.searchhistory.Pairwise cordsLt)
    (k : Nat) (a b : cords) (row : erow) (ha : E.searchhistory[k]? = some a)
    (hb : E.searchhistory[k + 1]? = some b) (hrx : E.rx = a.x) (hry : E.ry = a.y)
    (hrow : E.rowAt a.y = some row) :
    ∃ E1, editorFindMoveToMatch E (-1) = some E1 ∧ E1.rx = a.x ∧ E1.ry = a.y := by
  have hlt : k + 1 < E.searchhistory.length := (List.getElem?_eq_some_iff.mp hb).1
  have hne : E.searchhistory ≠ [] := by
    intro e
    rw [e] at hlt
    simp at hlt
  have hscan : findScan E.searchhistory E.ry E.rx 0 = some (k + 1) := by
    rw [hrx, hry]
    exact findScan_at_match _ hs k a b ha hb
  have hidx : (((k + 1 : Nat) : Int) + (-1) + E.sh_len).tmod E.sh_len = k := by
    have e : ((k + 1 : Nat) : Int) + (-1) + E.sh_len = (k : Int) + 0 + E.sh_len := by
      push_cast
      ring
    rw [e]
    exact tmod_index k _ (by omega)
  obtain ⟨E1, h1, h2, h3, _⟩ :=
    editorFindMoveToMatch_spec E (-1) (k + 1) k a row hne hscan hidx ha hrow
  exact ⟨E1, h1, h2, h3⟩

/-- C10 on the code: with the three matches `(6,0)`, `(5,1)`, `(7,1)` and the
cursor exactly on match 0, `editorFindMoveToMatch(-1)`, the call the key `N`
makes, leaves the cursor on match 0; the claim has it on match 2, `(7,1)`. -/
theorem C10_backward_from_match_zero :
    (threeMatches 6 0).searchhistory[0]? = some { x := (threeMatches 6 0).rx, y := (threeMatches 6 0).ry }
    ∧ (editorFindMoveToMatch (threeMatches 6 0) (-1)).map (fun E => (E.rx, E.ry)) = some (6, 0)
    ∧ (editorProcessKeypress_N (threeMatches 6 0)).map (fun E => (E.rx, E.ry)) = some (6, 0)
    ∧ (threeMatches 6 0).searchhistory[2]? = some { x := 7, y := 1 } := by
  decide

/-! ## C11: the scan when the cursor is past every match -/

theorem findScan_past (sh : List cords) (ry rx : Int) (i : Nat)
    (h : ∀ m ∈ sh, ¬ cursorBefore ry rx m) :
    findScan sh ry rx i = none ∧ (i + sh.length) ∈ findScanReads sh ry rx i := by
  induction sh generalizing i with
  | nil => simp [findScan, findScanReads]
  | cons a rest ih =>
    have ha : a.y < ry ∨ (a.y = ry ∧ a.x ≤ rx) := by
      have := h a (by simp)
      unfold cursorBefore at this
      exact not_not.mp this
    obtain ⟨h1, h2⟩ := ih (i + 1) (fun m hm => h m (by simp [hm]))
    refine ⟨by simp only [findScan, ha, if_true, h1], ?_⟩
    simp only [findScanReads, ha, if_true, List.length_cons, List.mem_cons]
    right
    have e : i + (rest.length + 1) = i + 1 + rest.length := by omega
    rw [e]
    exact h2

/-- With a non-empty match list and no match after the cursor,
`editorFindMoveToMatch` has no result for any offset: its scan reads index
`sh_len`. -/
theorem editorFindMoveToMatch_past (E : editorConfig) (off : Int) (hne : E.searchhistory ≠ [])
    (h : ∀ m ∈ E.searchhistory, ¬ cursorBefore E.ry E.rx m) :
    editorFindMoveToMatch E off = none
      ∧ E.searchhistory.length ∈ findScanReads E.searchhistory E.ry E.rx 0 := by
  obtain ⟨h1, h2⟩ := findScan_past E.searchhistory E.ry E.rx 0 h
  have hlen : ¬ (E.sh_len = 0) := by
    simp [editorConfig.sh_len, hne]
  refine ⟨by simp only [editorFindMoveToMatch, hlen, if_false, h1], by simpa using h2⟩

/-- C11 on the code: with the three matches `(6,0)`, `(5,1)`, `(7,1)` and the
cursor on the last one, `(7,1)`, no entry is after the cursor; the scan of
`editorFindMoveToMatch` reads the entries at the indices 0, 1, 2 and then index
3, which is `sh_len`, so the call has no defined result where the claim has the
cursor moved to match 0. -/
theorem C11_scan_past_every_match :
    (threeMatches 7 1).sh_len = 3
    ∧ (∀ m ∈ (threeMatches 7 1).searchhistory,
        ¬ cursorBefore (threeMatches 7 1).ry (threeMatches 7 1).rx m)
    ∧ findScanReads (threeMatches 7 1).searchhistory (threeMatches 7 1).ry (threeMatches 7 1).rx 0
        = [0, 1, 2, 3]
    ∧ editorFindMoveToMatch (threeMatches 7 1) 0 = none
    ∧ editorProcessKeypress_n (threeMatches 7 1) = none := by
  decide

/-! ## C12: the jump that ends a search -/

theorem editorFindMoveToMatch_dirty (E E1 : editorConfig) (off : Int)
    (h : editorFindMoveToMatch E off = some E1) :
    E1.dirty = E.dirty ∧ E1.lncolwidth = E.lncolwidth := by
  unfold editorFindMoveToMatch at h
  split at h
  · injection h with h
    subst h
    exact ⟨rfl, rfl⟩
  · split at h
    · cases h
    · simp only at h
      split at h
      · cases h
      · split at h
        · cases h
        · split at h
          · cases h
          · rename_i E2 hE2
            injection h with h
            subst h
            unfold editorUpdateDataCoords at hE2
            obtain ⟨row, _, rfl⟩ := Option.map_eq_some'.mp hE2
            exact ⟨rfl, rfl⟩

theorem findJump_dirty (E E1 : editorConfig) (h : findJump E = some E1) :
    E1.dirty = E.dirty ∧ E1.lncolwidth = E.lncolwidth := by
  unfold findJump at h
  split at h
  · split at h
    · cases h
    · rename_i E2 hE2
      split at h
      · cases h
      · rename_i E3 hE3
        injection h with h
        subst h
        unfold editorUpdateDataCoords at hE2
        obtain ⟨row, _, rfl⟩ := Option.map_eq_some'.mp hE2
        obtain ⟨h3, h4⟩ := editorFindMoveToMatch_dirty _ _ _ hE3
        exact ⟨h3, h4⟩
  · injection h with h
    subst h
    exact ⟨rfl, rfl⟩

/-- The jump block when the cursor row is in the buffer, the matches lie on rows
of the buffer and some match lies after the cursor: it returns with the
cursor's render coordinates on the first such match in list order. -/
theorem findJump_spec (E : editorConfig) (row : erow) (hrow : E.rowAt E.ry = some row)
    (hys : ∀ m ∈ E.searchhistory, 0 ≤ m.y ∧ m.y < E.numrows)
    (hafter : ∃ m ∈ E.searchhistory, cursorBefore E.ry E.rx m) :
    ∃ (E1 : editorConfig) (i0 : Nat) (m : cords), findJump E = some E1
      ∧ E.searchhistory[i0]? = some m ∧ cursorBefore E.ry E.rx m
      ∧ (∀ (j : Nat) (mj : cords), j < i0 → E.searchhistory[j]? = some mj →
          ¬ cursorBefore E.ry E.rx mj)
      ∧ E1.rx = m.x ∧ E1.ry = m.y := by
  obtain ⟨m1, hm1, _⟩ := hafter
  have hne : E.searchhistory ≠ [] := List.ne_nil_of_mem hm1
  have hlen : E.searchhistory.length ≠ 0 := by simpa using hne
  obtain ⟨i0, m, hscan, hget, hbefore, hmin⟩ :=
    findScan_some E.searchhistory E.ry E.rx 0 ⟨m1, hm1, by assumption⟩
  rw [Nat.zero_add] at hscan
  have hi0 : i0 < E.searchhistory.length := (List.getElem?_eq_some_iff.mp hget).1
  have hmem : m ∈ E.searchhistory := List.mem_iff_getElem?.mpr ⟨i0, hget⟩
  obtain ⟨rowm, hrowm⟩ := rowAt_some_of_range E m.y (hys m hmem).1 (hys m hmem).2
  obtain ⟨cx1, hcx1⟩ : ∃ cx1 : Int,
      cx1 = (dataCoordsLoop row.chars 0 (E.lncolwidth - 1) E.rx : Nat) := ⟨_, rfl⟩
  obtain ⟨E2, hE2⟩ : ∃ E2, E2 = ({ E with cx := cx1, cy := E.ry } : editorConfig) := ⟨_, rfl⟩
  have hdc : editorUpdateDataCoords E = some E2 := by
    simp only [editorUpdateDataCoords, hrow, Option.map_some', hE2, hcx1]
  have hrowm2 : E2.rowAt m.y = some rowm := by
    rw [rowAt_congr E E2 (by rw [hE2])]
    exact hrowm
  have hk : ((i0 : Int) + 0 + E2.sh_len).tmod E2.sh_len = i0 := by
    have e : E2.sh_len = (E.searchhistory.length : Int) := by rw [hE2]; rfl
    rw [e]
    exact tmod_index i0 _ hi0
  obtain ⟨E3, hE3, hrx, hry, _⟩ := editorFindMoveToMatch_spec E2 0 i0 i0 m rowm
    (by rw [hE2]; exact hne) (by rw [hE2]; exact hscan) hk (by rw [hE2]; exact hget) hrowm2
  obtain ⟨ro, hro⟩ : ∃ ro : Int, ro = E3.cy - E3.screenrows.tdiv 2 := ⟨_, rfl⟩
  refine ⟨{ E3 with rowoff := if ro < 0 then 0 else ro }, i0, m, ?_, hget, hbefore, hmin,
    hrx, hry⟩
  simp only [findJump, hlen, ne_eq, not_false_eq_true, if_true, hdc, hE3, hro]

/-- C12 as stated fails: on the row `"a55"` with the cursor at character index 1,
render position `(rx, ry) = (6, 0)`, the search for `"5"` builds the matches
`(6,0)` and `(7,0)`; the first one is exactly at the cursor, and the cursor ends
on the second one, `(7,0)`. -/
theorem C12_jump_after_search_counterexample :
    renderColumn digitBuffer 0 1 = some 6
    ∧ (editorFindCallback { digitBuffer with cx := 1, rx := 6 } [] [53] 53).map
        (fun res => (res.1.searchhistory, res.1.rx, res.1.ry))
      = some ([{ x := 6, y := 0 }, { x := 7, y := 0 }], 7, 0) := by
  decide

/-- C12 (as the code has it): for every buffer, every non-empty query and every
cursor render position `(ry, rx)` on a row of the buffer, when the match list
the search builds has a match whose (row, column) is strictly greater than the
cursor's position, `editorFindCallback` returns with the cursor's render
coordinates on the first such match in list order; a match exactly at the
cursor is passed over. -/
theorem C12_jump_after_search (E : editorConfig) (saved : List saved_hl) (query : List Nat)
    (key : Int) (row : erow) (hkey : key ≠ 13 ∧ key ≠ 27) (hq : query ≠ [])
    (hrows : ∀ row ∈ E.rows, row.hl.length = row.render.length)
    (hsaved : savedOk E.rows saved) (hrow : E.rowAt E.ry = some row) :
    ∃ (rows0 rows1 : List erow) (sh : List cords) (saved1 : List saved_hl),
      restoreHl E.rows saved = some rows0
      ∧ findRows rows0 0 (E.lncolwidth - 1) query [] [] = some (rows1, sh, saved1)
      ∧ ((∃ m ∈ sh, cursorBefore E.ry E.rx m) →
          ∃ (E1 : editorConfig) (i0 : Nat) (m : cords),
            editorFindCallback E saved query key = some (E1, saved1)
            ∧ E1.searchhistory = sh ∧ sh[i0]? = some m ∧ cursorBefore E.ry E.rx m
            ∧ (∀ (j : Nat) (mj : cords), j < i0 → sh[j]? = some mj →
                ¬ cursorBefore E.ry E.rx mj)
            ∧ E1.rx = m.x ∧ E1.ry = m.y) := by
  obtain ⟨rows0, rows1, sh, saved1, hres0, hfind, hcb, hmem, _, _, hch, _⟩ :=
    editorFindCallback_pass E saved query key hkey hq hrows hsaved
  refine ⟨rows0, rows1, sh, saved1, hres0, hfind, ?_⟩
  intro hafter
  have hlen1 : rows1.length = E.rows.length := by
    have := congrArg List.length hch
    simpa using this
  obtain ⟨E2, hE2⟩ : ∃ E2, E2 = ({ E with rows := rows1, searchhistory := sh } : editorConfig) :=
    ⟨_, rfl⟩
  obtain ⟨ry, hry, hrylt⟩ := rowAt_lt E E.ry row hrow
  obtain ⟨row1, hrow1⟩ := rowAt_some_of_lt E2 ry (by rw [hE2]; simpa [hlen1] using hrylt)
  have hrow2 : E2.rowAt E2.ry = some row1 := by
    have e : E2.ry = (ry : Int) := by rw [hE2]; exact hry
    rw [e]
    exact hrow1
  have hys : ∀ m ∈ E2.searchhistory, 0 ≤ m.y ∧ m.y < E2.numrows := by
    intro m hm
    have hm2 : m ∈ sh := by rw [hE2] at hm; exact hm
    obtain ⟨r, o, rowm, hr1, _, hr3⟩ := (hmem m).mp hm2
    have hrlt : r < E.rows.length := (List.getElem?_eq_some_iff.mp hr1).1
    have hn : E2.numrows = (rows1.length : Int) := by rw [hE2]; rfl
    rw [hr3, hn, hlen1]
    constructor
    · exact Int.natCast_nonneg r
    · exact Int.ofNat_lt.mpr hrlt
  obtain ⟨E1, i0, m, hj, hget, hbefore, hmin, hrx, hryy⟩ :=
    findJump_spec E2 row1 hrow2 hys (by rw [hE2]; exact hafter)
  have hsh : E1.searchhistory = sh := by
    rw [(findJump_frame _ _ hj).1, hE2]
  refine ⟨E1, i0, m, ?_, hsh, by rw [hE2] at hget; exact hget, by rw [hE2] at hbefore; exact hbefore,
    ?_, hrx, hryy⟩
  · rw [hcb, ← hE2, hj]
    rfl
  · intro j mj hjlt hgetj
    have := hmin j mj hjlt (by rw [hE2]; exact hgetj)
    rw [hE2] at this
    exact this

theorem C12_jump_after_search_witness :
    ∃ (rows0 rows1 : List erow) (sh : List cords) (saved1 : List saved_hl),
      restoreHl abBuffer.rows [] = some rows0
      ∧ findRows rows0 0 (abBuffer.lncolwidth - 1) [97, 98] [] [] = some (rows1, sh, saved1)
      ∧ ((∃ m ∈ sh, cursorBefore abBuffer.ry abBuffer.rx m) →
          ∃ (E1 : editorConfig) (i0 : Nat) (m : cords),
            editorFindCallback abBuffer [] [97, 98] 98 = some (E1, saved1)
            ∧ E1.searchhistory = sh ∧ sh[i0]? = some m ∧ cursorBefore abBuffer.ry abBuffer.rx m
            ∧ (∀ (j : Nat) (mj : cords), j < i0 → sh[j]? = some mj →
                ¬ cursorBefore abBuffer.ry abBuffer.rx mj)
            ∧ E1.rx = m.x ∧ E1.ry = m.y) :=
  C12_jump_after_search abBuffer [] [97, 98] 98 (editorUpdateRow ⟨[120, 97, 98, 121], [], []⟩)
    (by decide) (by decide) (by decide) (by intro s hs; cases hs) (by decide)

/-! ## C13: the empty query -/

/-- With the empty needle `strstr` returns the haystack itself, never `NULL`. -/
theorem strstr_nil (hay : List Nat) : strstr hay [] = some 0 := by
  cases hay <;> simp [strstr]

/-- With the empty query the loop over one row has no result: `strstr` never
returns `NULL`, so `p_match` is stepped past the terminator of `render`. -/
theorem findRowLoop_nil (fuel : Nat) (render : List Nat) (i g : Int) :
    ∀ (off : Nat) (sh : List cords) (hl : List Nat),
      findRowLoop fuel render [] i g off sh hl = none := by
  induction fuel with
  | zero => intro off sh hl; rfl
  | succ fuel ih =>
    intro off sh hl
    simp only [findRowLoop, strstr_nil]
    split
    · rfl
    · exact ih _ _ _

/-- With the empty query and at least one row, `editorFindCallback` invoked with a
key other than Enter and Escape has no result. -/
theorem editorFindCallback_nil (E : editorConfig) (key : Int) (hkey : key ≠ 13 ∧ key ≠ 27)
    (hne : E.rows ≠ []) : editorFindCallback E [] [] key = none := by
  have hk : ¬ (key = 13 ∨ key = 27) := by
    rintro (h | h)
    · exact hkey.1 h
    · exact hkey.2 h
  obtain ⟨row, rest, hrows⟩ := List.exists_cons_of_ne_nil hne
  simp only [editorFindCallback, hk, if_false, restoreHl, hrows, findRows, strstr_nil,
    findRowLoop_nil]

/-- C13 on the code: on the buffer with the single row `"aaa"`, the search invoked
with the empty query, as `editorPrompt` does after the Backspace key on an empty
prompt, does not come back with the state unchanged: `strstr(render, "")`
returns `render`, and the loop steps `p_match` through the offsets 0 to 3 and
then past the terminator of the row's render, with no defined result. -/
theorem C13_empty_query :
    strstr (cstr [97, 97, 97]) [] = some 0
    ∧ editorFindCallback aaaBuffer [] [] BACKSPACE = none
    ∧ editorFind aaaBuffer [] [BACKSPACE, 27] = none := by
  decide

/-! ## C14: the match overlay -/

theorem memset_get (buf : List Nat) (off v n p : Nat) (h : off + n ≤ buf.length) :
    (memset buf off v n)[p]? = if off ≤ p ∧ p < off + n then some v else buf[p]? := by
  unfold memset
  by_cases h1 : p < off
  · have hc : ¬ (off ≤ p ∧ p < off + n) := by omega
    rw [List.append_assoc, List.getElem?_append_left (by simp; omega),
      List.getElem?_take_of_lt h1]
    simp [hc]
  · by_cases h2 : p < off + n
    · have hc : off ≤ p ∧ p < off + n := by omega
      rw [List.getElem?_append_left (by simp; omega),
        List.getElem?_append_right (by simp; omega)]
      simp only [hc, and_self, if_true]
      rw [List.getElem?_replicate_of_lt (by simp; omega)]
    · have hc : ¬ (off ≤ p ∧ p < off + n) := by omega
      rw [List.getElem?_append_right (by simp; omega), List.getElem?_drop]
      simp only [hc, if_false]
      congr 1
      simp
      omega

/-- The tags the loop over one row leaves: `Match` inside every occurrence at or
after `off`, the tags it started from elsewhere. -/
theorem findRowLoop_hl (fuel : Nat) (render q : List Nat) (i g : Int) (hq : q ≠ []) :
    ∀ (off : Nat) (sh : List cords) (hl : List Nat) (sh1 : List cords) (hl1 : List Nat),
      q <+: render.drop off → render.length ≤ hl.length →
      findRowLoop fuel render q i g off sh hl = some (sh1, hl1) →
      ∀ p, (coveredFrom render q off p → hl1[p]? = some HL_MATCH)
        ∧ (¬ coveredFrom render q off p → hl1[p]? = hl[p]?) := by
  have hqlen : 0 < q.length := List.length_pos.mpr hq
  induction fuel with
  | zero =>
    intro off sh hl sh1 hl1 _ _ h
    simp [findRowLoop] at h
  | succ fuel ih =>
    intro off sh hl sh1 hl1 hocc hhl h p
    have hlen := hocc.length_le
    rw [List.length_drop] at hlen
    have hoff : ¬ (off + 1 > render.length) := by omega
    have hms := memset_get hl off HL_MATCH q.length p (by omega)
    have hmslen : (memset hl off HL_MATCH q.length).length = hl.length :=
      memset_length _ _ _ _ (by omega)
    cases hs : strstr (render.drop (off + 1)) q with
    | none =>
      simp only [findRowLoop, hoff, if_false, hs] at h
      injection h with h
      injection h with _ h2
      subst h2
      have hiff : coveredFrom render q off p ↔ (off ≤ p ∧ p < off + q.length) := by
        constructor
        · rintro ⟨o, ho1, ho2, ho3, ho4⟩
          rcases Nat.eq_or_lt_of_le ho1 with e | e
          · subst e; exact ⟨ho3, ho4⟩
          · exfalso
            have hno := strstr_none _ _ hs (o - (off + 1))
            rw [List.drop_drop, show off + 1 + (o - (off + 1)) = o by omega] at hno
            exact hno ho2
        · rintro ⟨h1, h2⟩
          exact ⟨off, le_refl _, hocc, h1, h2⟩
      rw [hms]
      constructor
      · intro hc
        rw [if_pos (hiff.mp hc)]
      · intro hc
        rw [if_neg (fun hx => hc (hiff.mpr hx))]
    | some o1 =>
      simp only [findRowLoop, hoff, if_false, hs] at h
      obtain ⟨h1, h2, h3⟩ := strstr_some _ _ _ hs
      rw [List.drop_drop] at h1
      have hih := ih (off + 1 + o1) _ (memset hl off HL_MATCH q.length) sh1 hl1 h1 (by omega) h p
      have hsplit : coveredFrom render q off p ↔
          ((off ≤ p ∧ p < off + q.length) ∨ coveredFrom render q (off + 1 + o1) p) := by
        constructor
        · rintro ⟨o, ho1, ho2, ho3, ho4⟩
          rcases Nat.eq_or_lt_of_le ho1 with e | e
          · subst e; exact Or.inl ⟨ho3, ho4⟩
          · right
            refine ⟨o, ?_, ho2, ho3, ho4⟩
            by_contra hc
            have hno := h3 (o - (off + 1)) (by omega)
            rw [List.drop_drop, show off + 1 + (o - (off + 1)) = o by omega] at hno
            exact hno ho2
        · rintro (⟨h1, h2⟩ | ⟨o, ho1, ho2, ho3, ho4⟩)
          · exact ⟨off, le_refl _, hocc, h1, h2⟩
          · exact ⟨o, by omega, ho2, ho3, ho4⟩
      constructor
      · intro hc
        by_cases hc2 : coveredFrom render q (off + 1 + o1) p
        · exact hih.1 hc2
        · rw [hih.2 hc2, hms]
          rcases hsplit.mp hc with hx | hx
          · rw [if_pos hx]
          · exact absurd hx hc2
      · intro hc
        have hc2 : ¬ coveredFrom render q (off + 1 + o1) p := fun hx => hc (hsplit.mpr (Or.inr hx))
        have hc3 : ¬ (off ≤ p ∧ p < off + q.length) := fun hx => hc (hsplit.mpr (Or.inl hx))
        rw [hih.2 hc2, hms, if_neg hc3]

/-- The rows the loop over the rows returns: chars and render as before, and in
`hl` the tag `Match` inside every occurrence of the query in the C string of the
render, the tags it started from elsewhere. -/
theorem findRows_hl (g : Int) (q : List Nat) (hq : q ≠ []) (rows : List erow) :
    ∀ (i : Nat) (sh : List cords) (saved : List saved_hl) (rows1 : List erow)
      (sh1 : List cords) (saved1 : List saved_hl),
      (∀ row ∈ rows, row.hl.length = row.render.length) →
      findRows rows i g q sh saved = some (rows1, sh1, saved1) →
      ∀ (r : Nat) (row1 : erow), rows1[r]? = some row1 →
        ∃ row, rows[r]? = some row ∧ row1.chars = row.chars ∧ row1.render = row.render
          ∧ ∀ p, (coveredFrom (cstr row.render) q 0 p → row1.hl[p]? = some HL_MATCH)
            ∧ (¬ coveredFrom (cstr row.render) q 0 p → row1.hl[p]? = row.hl[p]?) := by
  induction rows with
  | nil =>
    intro i sh saved rows1 sh1 saved1 _ h r row1 hr
    simp only [findRows] at h
    injection h with h
    injection h with h1 _
    subst h1
    simp at hr
  | cons row rest ih =>
    intro i sh saved rows1 sh1 saved1 hrows h r row1 hr
    have hrow := hrows row (by simp)
    have hrest : ∀ x ∈ rest, x.hl.length = x.render.length :=
      fun x hx => hrows x (by simp [hx])
    have hc : (cstr row.render).length ≤ row.render.length :=
      (List.takeWhile_prefix _).length_le
    cases hs : strstr (cstr row.render) q with
    | none =>
      simp only [findRows, hs] at h
      obtain ⟨res, hres, hpair⟩ := Option.map_eq_some'.mp h
      obtain ⟨resrows, ressh, ressaved⟩ := res
      injection hpair with hp1 hp2
      injection hp2 with hp2 hp3
      subst hp1 hp2 hp3
      cases r with
      | zero =>
        simp at hr
        subst hr
        refine ⟨row, by simp, rfl, rfl, ?_⟩
        intro p
        constructor
        · rintro ⟨o, _, ho, _, _⟩
          exact absurd ho (strstr_none _ _ hs o)
        · intro _
          rfl
      | succ r =>
        obtain ⟨row0, h0, h1⟩ := ih _ _ _ _ _ _ hrest hres r row1 (by simpa using hr)
        exact ⟨row0, by simpa using h0, h1⟩
    | some off =>
      obtain ⟨hocc, _, hmin⟩ := strstr_some _ _ _ hs
      simp only [findRows, hs] at h
      cases hloop : findRowLoop ((cstr row.render).length + 1) (cstr row.render) q (i : Int) g off
          sh row.hl with
      | none => simp [hloop] at h
      | some lp =>
        obtain ⟨shx, hl1⟩ := lp
        simp only [hloop] at h
        obtain ⟨res, hres, hpair⟩ := Option.map_eq_some'.mp h
        obtain ⟨resrows, ressh, ressaved⟩ := res
        injection hpair with hp1 hp2
        injection hp2 with hp2 hp3
        subst hp1 hp2 hp3
        cases r with
        | zero =>
          simp at hr
          subst hr
          refine ⟨row, by simp, rfl, rfl, ?_⟩
          intro p
          have hcov : coveredFrom (cstr row.render) q 0 p ↔ coveredFrom (cstr row.render) q off p := by
            constructor
            · rintro ⟨o, _, ho2, ho3, ho4⟩
              refine ⟨o, ?_, ho2, ho3, ho4⟩
              by_contra hcon
              exact hmin o (by omega) ho2
            · rintro ⟨o, _, ho2, ho3, ho4⟩
              exact ⟨o, Nat.zero_le _, ho2, ho3, ho4⟩
          have := findRowLoop_hl _ _ q (i : Int) g hq off sh row.hl shx hl1 hocc (by omega) hloop p
          rw [hcov]
          exact this
        | succ r =>
          obtain ⟨row0, h0, h1⟩ := ih _ _ _ _ _ _ hrest hres r row1 (by simpa using hr)
          exact ⟨row0, by simpa using h0, h1⟩

/-- C14 as stated fails: the row `"a\0b"` has the render `a`, NUL, `b` and the
highlight array of its classification; the query `"b"` occurs in the render at
offset 2, but `strstr` reads the render as a C string, which ends at the NUL:
the search finds no match and position 2 keeps the tag `Normal`. -/
theorem C14_match_overlay_counterexample :
    nulBuffer.rows.map erow.render = [[97, 0, 98]]
    ∧ nulBuffer.rows.map erow.hl = nulBuffer.rows.map (fun row => (editorUpdateSyntax row).hl)
    ∧ ([98] : List Nat) <+: ([97, 0, 98] : List Nat).drop 2
    ∧ (editorFindCallback nulBuffer [] [98] 98).map (fun res => res.1.rows.map erow.hl)
        = some [[HL_NORMAL, HL_NORMAL, HL_NORMAL]] := by
  refine ⟨by decide, by decide, ⟨[], rfl⟩, by decide⟩

/-- C14 (as the code has it): for every buffer in which every row's highlight
array is the classification of its render and no overlay is saved, and every
non-empty query `q`, the rows the search leaves have, at every position `p`, the
tag `Match` when some occurrence of `q` in the C string of the row's render (the
bytes before its first NUL, the whole render of a row without NUL bytes) starts
at an offset `o` with `o ≤ p < o + |q|`, and the tag of the classification
otherwise; chars, render, the number of rows and the dirty counter are
unchanged.  The loop over the rows always returns these rows, and they are the
rows of every state `editorFindCallback` returns. -/
theorem C14_match_overlay (E : editorConfig) (query : List Nat) (key : Int)
    (hkey : key ≠ 13 ∧ key ≠ 27) (hq : query ≠ [])
    (hrows : ∀ row ∈ E.rows, row.hl = (editorUpdateSyntax row).hl) :
    ∃ (rows1 : List erow) (sh : List cords) (saved1 : List saved_hl),
      findRows E.rows 0 (E.lncolwidth - 1) query [] [] = some (rows1, sh, saved1)
      ∧ (∀ E1 s1, editorFindCallback E [] query key = some (E1, s1) →
          E1.rows = rows1 ∧ E1.dirty = E.dirty ∧ E1.numrows = E.numrows)
      ∧ rows1.map erow.chars = E.rows.map erow.chars
      ∧ rows1.map erow.render = E.rows.map erow.render
      ∧ ∀ (r p : Nat) (row1 : erow), rows1[r]? = some row1 →
          (coveredFrom (cstr row1.render) query 0 p → row1.hl[p]? = some HL_MATCH)
          ∧ (¬ coveredFrom (cstr row1.render) query 0 p →
              row1.hl[p]? = (editorUpdateSyntax row1).hl[p]?) := by
  have hlen : ∀ row ∈ E.rows, row.hl.length = row.render.length := by
    intro row hr
    rw [hrows row hr]
    simp [editorUpdateSyntax]
  obtain ⟨rows0, rows1, sh, saved1, hres0, hfind, hcb, _, _, _, hch, hrd⟩ :=
    editorFindCallback_pass E [] query key hkey hq hlen (by intro s hs; cases hs)
  have h0 : rows0 = E.rows := by
    simp only [restoreHl] at hres0
    injection hres0 with h
    exact h.symm
  subst h0
  refine ⟨rows1, sh, saved1, hfind, ?_, hch, hrd, ?_⟩
  · intro E1 s1 h
    rw [hcb] at h
    obtain ⟨E2, h2, hpair⟩ := Option.map_eq_some'.mp h
    injection hpair with he _
    subst he
    have hr : E2.rows = rows1 := (findJump_frame _ _ h2).2
    have hn : E2.numrows = E.numrows := by
      have hl := congrArg List.length hch
      simp only [List.length_map] at hl
      simp only [editorConfig.numrows, hr, hl]
    exact ⟨hr, (findJump_dirty _ _ h2).1, hn⟩
  · intro r p row1 hr1
    obtain ⟨row, hrow, _, hrender, hp⟩ :=
      findRows_hl (E.lncolwidth - 1) query hq E.rows 0 [] [] rows1 sh saved1 hlen hfind r row1 hr1
    have hcl : (editorUpdateSyntax row1).hl = row.hl := by
      rw [hrows row (List.mem_iff_getElem?.mpr ⟨r, hrow⟩)]
      simp only [editorUpdateSyntax, hrender]
    rw [hrender, hcl]
    exact hp p

theorem C14_match_overlay_witness :
    ∃ (rows1 : List erow) (sh : List cords) (saved1 : List saved_hl),
      findRows digitBuffer.rows 0 (digitBuffer.lncolwidth - 1) [53] [] [] = some (rows1, sh, saved1)
      ∧ (∀ E1 s1, editorFindCallback digitBuffer [] [53] 53 = some (E1, s1) →
          E1.rows = rows1 ∧ E1.dirty = digitBuffer.dirty ∧ E1.numrows = digitBuffer.numrows)
      ∧ rows1.map erow.chars = digitBuffer.rows.map erow.chars
      ∧ rows1.map erow.render = digitBuffer.rows.map erow.render
      ∧ ∀ (r p : Nat) (row1 : erow), rows1[r]? = some row1 →
          (coveredFrom (cstr row1.render) [53] 0 p → row1.hl[p]? = some HL_MATCH)
          ∧ (¬ coveredFrom (cstr row1.render) [53] 0 p →
              row1.hl[p]? = (editorUpdateSyntax row1).hl[p]?) :=
  C14_match_overlay digitBuffer [53] 53 (by decide) (by decide) (by decide)

/-! ## C15: a change of query -/

/-- C15: for every buffer in which every row's highlight array is the
classification of its render and every two non-empty queries `q1`, `q2`, with no
edit in between, `editorFindCallback(q1)` followed by `editorFindCallback(q2)`
gives every row the same highlight array, and the same match list, as
`editorFindCallback(q2)` alone on the original buffer: the second pass first
copies the saved arrays back, which gives the original rows, and then scans
them. -/
theorem C15_query_change (E : editorConfig) (q1 q2 : List Nat) (k1 k2 : Int)
    (hk1 : k1 ≠ 13 ∧ k1 ≠ 27) (hk2 : k2 ≠ 13 ∧ k2 ≠ 27) (hq1 : q1 ≠ []) (hq2 : q2 ≠ [])
    (hrows : ∀ row ∈ E.rows, row.hl = (editorUpdateSyntax row).hl) :
    ∃ (rowsA : List erow) (shA : List cords) (savedA : List saved_hl),
      findRows E.rows 0 (E.lncolwidth - 1) q2 [] [] = some (rowsA, shA, savedA)
      ∧ (∀ E3 s3, editorFindCallback E [] q2 k2 = some (E3, s3) →
          E3.rows = rowsA ∧ E3.searchhistory = shA)
      ∧ (∀ E1 s1, editorFindCallback E [] q1 k1 = some (E1, s1) →
          restoreHl E1.rows s1 = some E.rows
          ∧ ∀ E2 s2, editorFindCallback E1 s1 q2 k2 = some (E2, s2) →
              E2.rows = rowsA ∧ E2.searchhistory = shA) := by
  have hlen : ∀ row ∈ E.rows, row.hl.length = row.render.length := by
    intro row hr
    rw [hrows row hr]
    simp [editorUpdateSyntax]
  have hnil : savedOk E.rows [] := by intro s hs; cases hs
  obtain ⟨rowsB, rowsA, shA, savedA, hresB, hfindA, hcbA, _, _, _, _, _⟩ :=
    editorFindCallback_pass E [] q2 k2 hk2 hq2 hlen hnil
  have hB : rowsB = E.rows := by
    simp only [restoreHl] at hresB
    injection hresB with h
    exact h.symm
  subst hB
  obtain ⟨rows0, rows1, sh1, saved1, hres0, _, hcb1, _, _, hres1, _, _⟩ :=
    editorFindCallback_pass E [] q1 k1 hk1 hq1 hlen hnil
  have h0 : rows0 = E.rows := by
    simp only [restoreHl] at hres0
    injection hres0 with h
    exact h.symm
  subst h0
  refine ⟨rowsA, shA, savedA, hfindA, ?_, ?_⟩
  · intro E3 s3 h
    rw [hcbA] at h
    obtain ⟨E4, h4, hpair⟩ := Option.map_eq_some'.mp h
    injection hpair with he _
    subst he
    exact ⟨(findJump_frame _ _ h4).2, (findJump_frame _ _ h4).1⟩
  · intro E1 s1 h
    rw [hcb1] at h
    obtain ⟨E4, h4, hpair⟩ := Option.map_eq_some'.mp h
    injection hpair with he hs
    subst he hs
    have hr1 : E4.rows = rows1 := (findJump_frame _ _ h4).2
    have hl1 : E4.lncolwidth = E.lncolwidth := (findJump_dirty _ _ h4).2
    have hrest : restoreHl E4.rows saved1 = some E.rows := by rw [hr1]; exact hres1
    refine ⟨hrest, ?_⟩
    intro E2 s2 h2
    have hk : ¬ (k2 = 13 ∨ k2 = 27) := by
      rintro (hx | hx)
      · exact hk2.1 hx
      · exact hk2.2 hx
    simp only [editorFindCallback, hk, if_false, hrest, hl1, hfindA] at h2
    obtain ⟨E5, h5, hpair2⟩ := Option.map_eq_some'.mp h2
    injection hpair2 with he2 _
    subst he2
    exact ⟨(findJump_frame _ _ h5).2, (findJump_frame _ _ h5).1⟩

theorem C15_query_change_witness :
    ∃ (rowsA : List erow) (shA : List cords) (savedA : List saved_hl),
      findRows abBuffer.rows 0 (abBuffer.lncolwidth - 1) [98] [] [] = some (rowsA, shA, savedA)
      ∧ (∀ E3 s3, editorFindCallback abBuffer [] [98] 98 = some (E3, s3) →
          E3.rows = rowsA ∧ E3.searchhistory = shA)
      ∧ (∀ E1 s1, editorFindCallback abBuffer [] [97, 98] 97 = some (E1, s1) →
          restoreHl E1.rows s1 = some abBuffer.rows
          ∧ ∀ E2 s2, editorFindCallback E1 s1 [98] 98 = some (E2, s2) →
              E2.rows = rowsA ∧ E2.searchhistory = shA) :=
  C15_query_change abBuffer [97, 98] [98] 97 98 (by decide) (by decide) (by decide) (by decide)
    (by decide)

/-- The two runs of C15 on the rows `"xaby"`, `"ababab"`: `"ab"` then `"b"`, and
`"b"` alone; both return, with the same highlight arrays and match list. -/
theorem query_change_example :
    ((editorFindCallback abBuffer [] [97, 98] 97).bind
        (fun res => editorFindCallback res.1 res.2 [98] 98)).isSome = true
    ∧ ((editorFindCallback abBuffer [] [97, 98] 97).bind
        (fun res => editorFindCallback res.1 res.2 [98] 98)).map
          (fun res => (res.1.rows.map erow.hl, res.1.searchhistory))
      = (editorFindCallback abBuffer [] [98] 98).map
          (fun res => (res.1.rows.map erow.hl, res.1.searchhistory)) := by
  decide

/-! ## C16: vertical scrolling of the viewport -/

/-- The fields `editorScroll` leaves alone. -/
theorem editorScroll_frame (E : editorConfig) :
    (editorScroll E).cx = E.cx ∧ (editorScroll E).cy = E.cy ∧ (editorScroll E).rx = E.rx
      ∧ (editorScroll E).ry = E.ry ∧ (editorScroll E).rows = E.rows
      ∧ (editorScroll E).screenrows = E.screenrows
      ∧ (editorScroll E).screencols = E.screencols := by
  unfold editorScroll
  simp only []
  split_ifs <;> exact ⟨rfl, rfl, rfl, rfl, rfl, rfl, rfl⟩

/-- The `rowoff` that `editorScroll` stores. -/
theorem editorScroll_rowoff (E : editorConfig) :
    (editorScroll E).rowoff
      = if E.cy < E.rowoff then
          (if E.cy ≥ E.cy + E.screenrows then E.cy - E.screenrows + 1 else E.cy)
        else (if E.cy ≥ E.rowoff + E.screenrows then E.cy - E.screenrows + 1 else E.rowoff) := by
  unfold editorScroll
  simp only []
  split_ifs <;> rfl

/-- The `coloff` that `editorScroll` stores. -/
theorem editorScroll_coloff (E : editorConfig) :
    (editorScroll E).coloff
      = if E.cx < E.coloff then
          (if E.cx ≥ E.cx + E.screencols then E.cx - E.screencols + 1 else E.cx)
        else (if E.cx ≥ E.coloff + E.screencols then E.cx - E.screencols + 1 else E.coloff) := by
  unfold editorScroll
  simp only []
  split_ifs <;> rfl

/-- C16: for every state with `screenrows ≥ 1`, when `cy ≥ rowoff + screenrows`
`editorScroll` sets `rowoff` to `cy - screenrows + 1`, so that the cursor row is
the last visible row; when `cy = rowoff + screenrows` `rowoff` grows by exactly
1; and when `rowoff ≤ cy < rowoff + screenrows` `rowoff` is unchanged. -/
theorem C16_minimal_scroll (E : editorConfig) (hsr : 1 ≤ E.screenrows) :
    (E.cy ≥ E.rowoff + E.screenrows →
        (editorScroll E).rowoff = E.cy - E.screenrows + 1
        ∧ (editorScroll E).cy = (editorScroll E).rowoff + (editorScroll E).screenrows - 1)
    ∧ (E.cy = E.rowoff + E.screenrows → (editorScroll E).rowoff = E.rowoff + 1)
    ∧ (E.rowoff ≤ E.cy → E.cy < E.rowoff + E.screenrows →
        (editorScroll E).rowoff = E.rowoff) := by
  obtain ⟨_, hcy, _, _, _, hrows, _⟩ := editorScroll_frame E
  have hro := editorScroll_rowoff E
  refine ⟨?_, ?_, ?_⟩
  · intro h
    have h1 : ¬ E.cy < E.rowoff := by omega
    rw [if_neg h1, if_pos h] at hro
    rw [hcy, hrows, hro]
    exact ⟨rfl, by omega⟩
  · intro h
    have h1 : ¬ E.cy < E.rowoff := by omega
    have h2 : E.cy ≥ E.rowoff + E.screenrows := by omega
    rw [if_neg h1, if_pos h2] at hro
    rw [hro]
    omega
  · intro h1 h2
    have h3 : ¬ E.cy < E.rowoff := by omega
    have h4 : ¬ E.cy ≥ E.rowoff + E.screenrows := by omega
    rw [if_neg h3, if_neg h4] at hro
    exact hro

theorem C16_minimal_scroll_witness :
    (scrollState.cy ≥ scrollState.rowoff + scrollState.screenrows →
        (editorScroll scrollState).rowoff = scrollState.cy - scrollState.screenrows + 1
        ∧ (editorScroll scrollState).cy
          = (editorScroll scrollState).rowoff + (editorScroll scrollState).screenrows - 1)
    ∧ (scrollState.cy = scrollState.rowoff + scrollState.screenrows →
        (editorScroll scrollState).rowoff = scrollState.rowoff + 1)
    ∧ (scrollState.rowoff ≤ scrollState.cy →
        scrollState.cy < scrollState.rowoff + scrollState.screenrows →
        (editorScroll scrollState).rowoff = scrollState.rowoff) :=
  C16_minimal_scroll scrollState (by decide)

/-! ## C17: the window after `editorScroll` -/

/-- What `editorScroll` establishes for `screenrows ≥ 1` and `screencols ≥ 1`: the
cursor row is inside the row window and the character index `cx` is inside the
column window. -/
theorem editorScroll_window (E : editorConfig) (hsr : 1 ≤ E.screenrows)
    (hsc : 1 ≤ E.screencols) :
    (editorScroll E).rowoff ≤ (editorScroll E).cy
      ∧ (editorScroll E).cy < (editorScroll E).rowoff + (editorScroll E).screenrows
      ∧ (editorScroll E).coloff ≤ (editorScroll E).cx
      ∧ (editorScroll E).cx < (editorScroll E).coloff + (editorScroll E).screencols := by
  obtain ⟨hcx, hcy, _, _, _, hrows, hcols⟩ := editorScroll_frame E
  rw [hcx, hcy, hrows, hcols, editorScroll_rowoff, editorScroll_coloff]
  refine ⟨?_, ?_, ?_, ?_⟩ <;> split_ifs <;> omega

set_option maxRecDepth 100000 in
/-- C17 on the code: on a 24 by 80 window, with one row of 80 bytes `'a'`, the
cursor at character index 78 and `coloff = 0`, the render column of the cursor
is `rx = 83`; `editorScroll` compares `cx`, not `rx`, with the column window and
leaves `coloff = 0`, so after it `rx = 83` is not below
`coloff + screencols = 80`. -/
theorem C17_reconcile_column :
    renderColumn wideBuffer wideBuffer.cy wideBuffer.cx = some 83
    ∧ (editorRefreshScreen wideBuffer).map (fun E => (E.cx, E.cy, E.rx, E.ry))
      = some (78, 0, 83, 0)
    ∧ (editorRefreshScreen wideBuffer).map
        (fun E => (E.rowoff, E.coloff, E.screenrows, E.screencols)) = some (0, 0, 22, 80)
    ∧ ¬ ((83 : Int) < 0 + 80) := by
  refine ⟨by decide, by decide, by decide, by decide⟩

/-! ## C18: relative scrolling -/

set_option maxRecDepth 100000 in
/-- C18 on the code: on the empty buffer of `initEditor` (`cy = 0 = numrows`,
`cx = 0`, `rowoff = 0`) `editorVerticalScroll(1)` leaves `cy = -1` and
`rowoff = -1`; and on the 30 rows `"abc"`, `""`, … with the cursor at the end of
row 0 (`cx = 3`, `cy = 0`, `rowoff = 0`, `screenrows = 22`) it leaves the cursor
on row 1 with `cx = 3`, past the size 0 of that row. -/
theorem C18_relative_scroll :
    ((initEditor 24 80).numrows, (initEditor 24 80).cx, (initEditor 24 80).cy,
        (initEditor 24 80).rowoff, (initEditor 24 80).screenrows) = (0, 0, 0, 0, 22)
    ∧ ((editorVerticalScroll (initEditor 24 80) 1).cy,
        (editorVerticalScroll (initEditor 24 80) 1).rowoff) = (-1, -1)
    ∧ (unevenBuffer.numrows, unevenBuffer.cx, unevenBuffer.cy, unevenBuffer.rowoff,
        unevenBuffer.screenrows, (unevenBuffer.rowAt 0).map erow.size) = (30, 3, 0, 0, 22, some 3)
    ∧ ((editorVerticalScroll unevenBuffer 1).cx, (editorVerticalScroll unevenBuffer 1).cy,
        (editorVerticalScroll unevenBuffer 1).rowoff,
        ((editorVerticalScroll unevenBuffer 1).rowAt 1).map erow.size) = (3, 1, 1, some 0) := by
  decide

/-! ## C19: `editorRowDelChar` at the end of the row -/

/-- C19 on the code: on the row `"ab"` (size 2) `editorRowDelChar(row, 2)` passes
the guard `at < 0 || at > row->size`, and leaves the row `"a"` with its render
and highlight rebuilt and the dirty counter larger by 1, where the claim has
the call change nothing. -/
theorem C19_delete_at_size :
    (editorUpdateRow ⟨[97, 98], [], []⟩).size = 2
    ∧ editorRowDelChar (editorUpdateRow ⟨[97, 98], [], []⟩) 0 2
        = some (editorUpdateRow ⟨[97], [], []⟩, 1)
    ∧ editorRowDelChar (editorUpdateRow ⟨[97, 98], [], []⟩) 0 3
        = some (editorUpdateRow ⟨[97, 98], [], []⟩, 0) := by
  decide

/-! ## C20: the split of a row by a newline -/

/-- A list with an element at index `n` is the elements before it, the element
and the elements after it. -/
theorem list_split_at {α : Type} (l : List α) (n : Nat) (a : α) (h : l[n]? = some a) :
    l = l.take n ++ a :: l.drop (n + 1) ∧ (l.take n).length = n := by
  obtain ⟨hlt, ha⟩ := List.getElem?_eq_some_iff.mp h
  constructor
  · conv_lhs => rw [← List.take_append_drop n l]
    rw [List.drop_eq_getElem_cons hlt, ha]
  · simp
    omega

theorem insert_after_set (pre post : List erow) (row row1 row2 : erow) :
    ((pre ++ row :: post).take (pre.length + 1) ++ row2 :: (pre ++ row :: post).drop (pre.length + 1)).set
        pre.length row1
      = pre ++ row1 :: row2 :: post := by
  have h1 : (pre ++ row :: post).take (pre.length + 1) = pre ++ [row] := by
    rw [List.take_append_eq_append_take]
    simp
  have h2 : (pre ++ row :: post).drop (pre.length + 1) = post := by
    rw [List.drop_append_eq_append_drop]
    simp
  rw [h1, h2, List.append_assoc, List.set_append_right _ _ (le_refl _)]
  simp

theorem insert_before (pre post : List erow) (row row2 : erow) :
    (pre ++ row :: post).take pre.length ++ row2 :: (pre ++ row :: post).drop pre.length
      = pre ++ row2 :: row :: post := by
  simp

/-- C20: for every state whose cursor is on a row of the buffer with
`0 ≤ cx ≤ size`, `editorInsertNewline` returns the row sequence
`rows[0..cy) ++ [first cx bytes of rows[cy], bytes of rows[cy] from cx on] ++
rows[cy+1..numrows)`: `numrows` grows by 1, the two new rows concatenated are
the old row, the other rows keep their content and order, and the cursor
becomes `(cx, cy) = (0, cy + 1)`. -/
theorem C20_newline_split (E : editorConfig) (row : erow) (hrow : E.rowAt E.cy = some row)
    (hcx0 : 0 ≤ E.cx) (hcx1 : E.cx ≤ row.size) :
    ∃ E1, editorInsertNewline E = some E1
      ∧ E1.rows.map erow.chars
          = (E.rows.map erow.chars).take E.cy.toNat
            ++ [row.chars.take E.cx.toNat, row.chars.drop E.cx.toNat]
            ++ (E.rows.map erow.chars).drop (E.cy.toNat + 1)
      ∧ E1.numrows = E.numrows + 1
      ∧ row.chars.take E.cx.toNat ++ row.chars.drop E.cx.toNat = row.chars
      ∧ E1.cx = 0 ∧ E1.cy = E.cy + 1 := by
  obtain ⟨n, hn, hnlt⟩ := rowAt_lt E E.cy row hrow
  have hget : E.rows[n]? = some row := by
    rw [hn, rowAt_natCast] at hrow
    exact hrow
  obtain ⟨k, hk⟩ := Int.eq_ofNat_of_zero_le hcx0
  have hkle : k ≤ row.chars.length := by
    rw [hk] at hcx1
    simpa [erow.size] using hcx1
  obtain ⟨hd, hpre⟩ := list_split_at E.rows n row hget
  obtain ⟨pre, hpre2⟩ : ∃ pre, pre = E.rows.take n := ⟨_, rfl⟩
  obtain ⟨post, hpost⟩ : ∃ post, post = E.rows.drop (n + 1) := ⟨_, rfl⟩
  rw [← hpre2, ← hpost] at hd
  rw [← hpre2] at hpre
  obtain ⟨cx, cy, rx, ry, rowoff, coloff, screenrows, screencols, lncolwidth, rows, sh, dirty⟩ := E
  simp only at hn hk hd hrow
  subst hn hk hd
  subst hpre
  have hmap : ((pre ++ row :: post).map erow.chars).take pre.length
      ++ [row.chars.take k, row.chars.drop k]
      ++ ((pre ++ row :: post).map erow.chars).drop (pre.length + 1)
      = pre.map erow.chars ++ row.chars.take k :: row.chars.drop k :: post.map erow.chars := by
    have h1 : ((pre ++ row :: post).map erow.chars).take pre.length = pre.map erow.chars := by
      rw [List.map_append, List.take_append_eq_append_take]
      simp
    have h2 : ((pre ++ row :: post).map erow.chars).drop (pre.length + 1)
        = post.map erow.chars := by
      rw [List.map_append, List.drop_append_eq_append_drop]
      simp
    rw [h1, h2]
    simp
  simp only [Int.toNat_ofNat, hmap, List.take_append_drop]
  by_cases hk0 : k = 0
  · subst hk0
    have hg : ¬ (((pre.length : Nat) : Int) < 0
        ∨ ((pre.length : Nat) : Int) > ((pre ++ row :: post).length : Nat)) := by
      simp only [List.length_append, List.length_cons]
      omega
    simp only [editorInsertNewline, Nat.cast_zero, if_true]
    refine ⟨_, rfl, ?_, ?_, trivial, rfl, rfl⟩
    · simp only [editorInsertRow, editorConfig.numrows, hg, if_false, Int.toNat_ofNat,
        insert_before]
      simp [editorUpdateRow_chars]
    · simp only [editorInsertRow, editorConfig.numrows, hg, if_false, Int.toNat_ofNat,
        insert_before]
      simp
      omega
  · have hkne : ¬ ((k : Int) = 0) := by omega
    have hg1 : ¬ ((k : Int) < 0 ∨ (k : Int) > row.size) := by
      simp only [erow.size]
      omega
    have hg2 : ¬ (((pre.length : Nat) : Int) + 1 < 0
        ∨ ((pre.length : Nat) : Int) + 1 > ((pre ++ row :: post).length : Nat)) := by
      simp only [List.length_append, List.length_cons]
      omega
    have hto : (((pre.length : Nat) : Int) + 1).toNat = pre.length + 1 := by omega
    simp only [editorInsertNewline, hkne, if_false, hrow, hg1]
    refine ⟨_, rfl, ?_, ?_, trivial, rfl, rfl⟩
    · simp only [editorInsertRow, editorConfig.numrows, hg2, if_false, Int.toNat_ofNat, hto,
        insert_after_set]
      simp [editorUpdateRow_chars]
    · simp only [editorInsertRow, editorConfig.numrows, hg2, if_false, Int.toNat_ofNat, hto,
        insert_after_set]
      simp
      omega

theorem C20_newline_split_witness :
    ∃ E1, editorInsertNewline splitState = some E1
      ∧ E1.rows.map erow.chars
          = (splitState.rows.map erow.chars).take splitState.cy.toNat
            ++ [(editorUpdateRow ⟨[97, 98, 97, 98, 97, 98], [], []⟩).chars.take splitState.cx.toNat,
                (editorUpdateRow ⟨[97, 98, 97, 98, 97, 98], [], []⟩).chars.drop splitState.cx.toNat]
            ++ (splitState.rows.map erow.chars).drop (splitState.cy.toNat + 1)
      ∧ E1.numrows = splitState.numrows + 1
      ∧ (editorUpdateRow ⟨[97, 98, 97, 98, 97, 98], [], []⟩).chars.take splitState.cx.toNat
          ++ (editorUpdateRow ⟨[97, 98, 97, 98, 97, 98], [], []⟩).chars.drop splitState.cx.toNat
          = (editorUpdateRow ⟨[97, 98, 97, 98, 97, 98], [], []⟩).chars
      ∧ E1.cx = 0 ∧ E1.cy = splitState.cy + 1 :=
  C20_newline_split splitState (editorUpdateRow ⟨[97, 98, 97, 98, 97, 98], [], []⟩) (by decide)
    (by decide) (by decide)

/-- The split of C20 evaluated: the rows `"xaby"`, `"ababab"` with the cursor at
`(cx, cy) = (2, 1)` become `"xaby"`, `"ab"`, `"abab"`, and at `cx = 0` an empty
row is put before row 1. -/
theorem newline_split_example :
    (editorInsertNewline splitState).map (fun E => (E.rows.map erow.chars, E.cx, E.cy))
      = some ([[120, 97, 98, 121], [97, 98], [97, 98, 97, 98]], 0, 2)
    ∧ (editorInsertNewline { splitState with cx := 0 }).map
        (fun E => (E.rows.map erow.chars, E.cx, E.cy))
      = some ([[120, 97, 98, 121], [], [97, 98, 97, 98, 97, 98]], 0, 2) := by
  decide

/-! ## the render loop and the column loop -/

/-- The padding loop with enough fuel appends the spaces missing to the next
multiple of the tab stop. -/
theorem padTab_eq (fuel : Nat) : ∀ (r : List Nat), (4 - r.length % 4) % 4 ≤ fuel →
    padTab fuel r = r ++ List.replicate ((4 - r.length % 4) % 4) 32 := by
  induction fuel with
  | zero =>
    intro r h
    have h0 : (4 - r.length % 4) % 4 = 0 := by omega
    simp [padTab, h0]
  | succ fuel ih =>
    intro r h
    by_cases hm : r.length % KILO_TAB_STOP ≠ 0
    · have hm4 : r.length % 4 ≠ 0 := hm
      have hlen : (r ++ [32]).length = r.length + 1 := by simp
      have hj : (4 - r.length % 4) % 4 = (4 - (r.length + 1) % 4) % 4 + 1 := by omega
      rw [padTab, if_pos hm]
      rw [ih (r ++ [32]) (by rw [hlen]; omega), hlen, hj, List.replicate_succ]
      simp
    · have hm4 : r.length % 4 = 0 := by
        have : ¬ r.length % 4 ≠ 0 := hm
        omega
      simp [padTab, hm, hm4]

/-- The tab branch of `editorUpdateRow`: one space and the padding loop append
`4 - idx % 4` spaces. -/
theorem tab_step (acc : List Nat) :
    padTab KILO_TAB_STOP (acc ++ [32]) = acc ++ List.replicate (4 - acc.length % 4) 32 := by
  have hlen : (acc ++ [32]).length = acc.length + 1 := by simp
  have h := padTab_eq 4 (acc ++ [32]) (by omega)
  have hj : 4 - acc.length % 4 = (4 - (acc.length + 1) % 4) % 4 + 1 := by omega
  rw [hlen] at h
  rw [hj, List.replicate_succ]
  simpa [KILO_TAB_STOP] using h

/-- The render loop on a concatenation runs the second part after the first. -/
theorem renderLoop_append (as bs : List Nat) : ∀ acc,
    renderLoop (as ++ bs) acc = renderLoop bs (renderLoop as acc) := by
  induction as with
  | nil => intro acc; rfl
  | cons c cs ih =>
    intro acc
    by_cases hc : c = 9
    · simp only [List.cons_append, renderLoop, hc, if_true]
      exact ih _
    · simp only [List.cons_append, renderLoop, hc, if_false]
      exact ih _

/-- The render loop only appends to the render built so far. -/
theorem renderLoop_prefix (cs : List Nat) : ∀ acc, acc <+: renderLoop cs acc := by
  induction cs with
  | nil => intro acc; exact List.prefix_refl _
  | cons c cs ih =>
    intro acc
    by_cases hc : c = 9
    · simp only [renderLoop, hc, if_true, tab_step]
      exact (List.prefix_append _ _).trans (ih _)
    · simp only [renderLoop, hc, if_false]
      exact (List.prefix_append _ _).trans (ih _)

/-- With the gutter offset 5 the column loop and the render loop stay in step:
the column after `cs` is 5 plus the length of the render after `cs`. -/
theorem colAfter_renderLoop (cs : List Nat) : ∀ acc : List Nat,
    colAfter cs (5 + (acc.length : Int)) = 5 + ((renderLoop cs acc).length : Int) := by
  induction cs with
  | nil => intro acc; rfl
  | cons c cs ih =>
    intro acc
    by_cases hc : c = 9
    · have hstep : advanceRx 9 (5 + (acc.length : Int))
          = 5 + ((acc ++ List.replicate (4 - acc.length % 4) 32).length : Int) := by
        simp only [advanceRx, if_true, KILO_TAB_STOP, List.length_append, List.length_replicate]
        have hpos : (0 : Int) ≤ 5 + (acc.length : Int) + ((4 : Nat) - 1 : Int) := by omega
        rw [Int.tmod_eq_emod hpos (by decide)]
        push_cast
        omega
      simp only [colAfter, List.foldl_cons, renderLoop, hc, if_true, tab_step] at ih ⊢
      rw [hstep]
      exact ih _
    · have hstep : advanceRx c (5 + (acc.length : Int)) = 5 + ((acc ++ [c]).length : Int) := by
        simp only [advanceRx, hc, if_false, List.length_append, List.length_singleton]
        push_cast
        omega
      simp only [colAfter, List.foldl_cons, renderLoop, hc, if_false] at ih ⊢
      rw [hstep]
      exact ih _

/-- The byte rendered for `cs[i]` starts where the render of the first `i`
bytes ends: there the render holds the byte itself, or the first space of a tab. -/
theorem renderLoop_at (cs : List Nat) (i c : Nat) (h : cs[i]? = some c) :
    (renderLoop cs [])[(renderLoop (cs.take i) []).length]? = some (if c = 9 then 32 else c) := by
  obtain ⟨hd, _⟩ := list_split_at cs i c h
  obtain ⟨P, hP⟩ : ∃ P, P = renderLoop (cs.take i) [] := ⟨_, rfl⟩
  have hstep : ∃ t, renderLoop cs [] = (P ++ [if c = 9 then 32 else c]) ++ t := by
    have hd2 : renderLoop cs [] = renderLoop (cs.take i ++ c :: cs.drop (i + 1)) [] := by
      rw [← hd]
    rw [hd2, renderLoop_append, ← hP]
    by_cases hc : c = 9
    · simp only [renderLoop, hc, if_true, tab_step]
      obtain ⟨t, ht⟩ := renderLoop_prefix (cs.drop (i + 1))
        (P ++ List.replicate (4 - P.length % 4) 32)
      have hk : 4 - P.length % 4 = (3 - P.length % 4) + 1 := by omega
      rw [hk, List.replicate_succ] at ht
      refine ⟨List.replicate (3 - P.length % 4) 32 ++ t, ?_⟩
      rw [hk, List.replicate_succ, ← ht]
      simp
    · simp only [renderLoop, hc, if_false]
      obtain ⟨t, ht⟩ := renderLoop_prefix (cs.drop (i + 1)) (P ++ [c])
      exact ⟨t, ht.symm⟩
  obtain ⟨t, ht⟩ := hstep
  rw [ht, ← hP, List.getElem?_append_left (by simp), List.getElem?_append_right (le_refl _)]
  simp

/-! ## C23: the coordinate mapper and the render cache -/

/-- C23: with the gutter offset `g = E.lncolwidth - 1` of `initEditor`
(`lncolwidth = 6`), for every row of the buffer and every character index
`0 ≤ i ≤ size`, the render column that `editorUpdateRenderCoords` computes for
`cx = i` is `g` plus the length of the render that `editorUpdateRow` builds for
the prefix `chars[0..i)`.  That render is a prefix of the render of the whole
row, so `rx - g` is the index in the render of the first byte rendered for
`chars[i]` (the byte itself, or the first space of a tab), and the row loop of
the search, entered at a match at that index, records the same column. -/
theorem C23_render_column_is_render_index (E : editorConfig) (cy : Int) (row : erow) (i : Nat)
    (hg : E.lncolwidth = (initEditor 24 80).lncolwidth)
    (hrow : E.rowAt cy = some row) (hi : i ≤ row.chars.length) :
    renderColumn E cy i
        = some (E.lncolwidth - 1 + (editorUpdateRow { row with chars := row.chars.take i }).rsize)
      ∧ (editorUpdateRow { row with chars := row.chars.take i }).render
          <+: (editorUpdateRow row).render
      ∧ (∀ c, row.chars[i]? = some c →
          (editorUpdateRow row).render[
              (editorUpdateRow { row with chars := row.chars.take i }).render.length]?
            = some (if c = 9 then 32 else c))
      ∧ ∀ (q hl : List Nat) (fuel : Nat), q ≠ [] →
          q <+: (editorUpdateRow row).render.drop
              (editorUpdateRow { row with chars := row.chars.take i }).render.length →
          (editorUpdateRow row).render.length
              < fuel + (editorUpdateRow { row with chars := row.chars.take i }).render.length →
          (editorUpdateRow row).render.length ≤ hl.length →
          ∃ res, findRowLoop fuel (editorUpdateRow row).render q cy (E.lncolwidth - 1)
                (editorUpdateRow { row with chars := row.chars.take i }).render.length [] hl
              = some res
            ∧ ∃ m ∈ res.1, renderColumn E cy i = some m.x ∧ m.y = cy := by
  have hl : E.lncolwidth = 6 := hg
  have hcol : renderColumn E cy i
      = some (E.lncolwidth - 1 + ((renderLoop (row.chars.take i) []).length : Int)) := by
    rw [renderColumn_eq E cy row i hrow hi, hl]
    have h := colAfter_renderLoop (row.chars.take i) []
    simp only [List.length_nil, Nat.cast_zero, add_zero] at h
    have h5 : (6 : Int) - 1 = 5 := by decide
    rw [h5, h]
  have hpre : renderLoop (row.chars.take i) [] <+: renderLoop row.chars [] := by
    have h2 : renderLoop row.chars []
        = renderLoop (row.chars.drop i) (renderLoop (row.chars.take i) []) := by
      rw [← renderLoop_append, List.take_append_drop]
    rw [h2]
    exact renderLoop_prefix _ _
  refine ⟨hcol, hpre, fun c hc => renderLoop_at row.chars i c hc, ?_⟩
  intro q hl0 fuel hq hocc hfuel hlen
  obtain ⟨offs, hl1, hres, _, _, hmem⟩ := findRowLoop_spec fuel (renderLoop row.chars []) q cy
    (E.lncolwidth - 1) hq (renderLoop (row.chars.take i) []).length [] hl0 hocc hfuel hlen
  refine ⟨_, hres,
    ⟨((renderLoop (row.chars.take i) []).length : Int) + (E.lncolwidth - 1), cy⟩, ?_, ?_, rfl⟩
  · simp only [List.nil_append, List.mem_map]
    exact ⟨_, (hmem _).mpr ⟨le_refl _, hocc⟩, rfl⟩
  · rw [hcol]
    simp only [Option.some.injEq]
    omega

theorem C23_render_column_is_render_index_witness :
    renderColumn tabBuffer 0 ((3 : Nat) : Int)
        = some (tabBuffer.lncolwidth - 1
            + (editorUpdateRow { editorUpdateRow ⟨[97, 9, 55, 9, 98], [], []⟩ with
                chars := (editorUpdateRow ⟨[97, 9, 55, 9, 98], [], []⟩).chars.take 3 }).rsize)
      ∧ (editorUpdateRow { editorUpdateRow ⟨[97, 9, 55, 9, 98], [], []⟩ with
            chars := (editorUpdateRow ⟨[97, 9, 55, 9, 98], [], []⟩).chars.take 3 }).render
          <+: (editorUpdateRow (editorUpdateRow ⟨[97, 9, 55, 9, 98], [], []⟩)).render :=
  ⟨(C23_render_column_is_render_index tabBuffer 0 (editorUpdateRow ⟨[97, 9, 55, 9, 98], [], []⟩) 3
      (by decide) (by decide) (by decide)).1,
    (C23_render_column_is_render_index tabBuffer 0 (editorUpdateRow ⟨[97, 9, 55, 9, 98], [], []⟩) 3
      (by decide) (by decide) (by decide)).2.1⟩

/-- The columns of C23 evaluated on the row `'a'`, TAB, `'7'`, TAB, `'b'`, whose
render is `a`, three spaces, `7`, three spaces, `b`: the render columns of the
character indices 0 to 5 are 5 plus the render indices 0, 1, 4, 5, 8 and 9. -/
theorem render_column_example :
    tabBuffer.rows.map erow.render = [[97, 32, 32, 32, 55, 32, 32, 32, 98]]
      ∧ [0, 1, 2, 3, 4, 5].map (fun (i : Nat) => renderColumn tabBuffer 0 i)
        = [some 5, some 6, some 9, some 10, some 13, some 14] := by
  decide

/-! ## C21: backspace at the start of a row -/

/-- A list with elements at the indices `n` and `n + 1` is the elements before
them, the two elements and the elements after them. -/
theorem list_split_two {α : Type} (l : List α) (n : Nat) (a b : α) (ha : l[n]? = some a)
    (hb : l[n + 1]? = some b) :
    l = l.take n ++ a :: b :: l.drop (n + 2) ∧ (l.take n).length = n := by
  obtain ⟨hd, hlen⟩ := list_split_at l n a ha
  obtain ⟨hlt, hb2⟩ := List.getElem?_eq_some_iff.mp hb
  have h2 : l.drop (n + 1) = b :: l.drop (n + 2) := by
    rw [List.drop_eq_getElem_cons hlt, hb2]
  rw [h2] at hd
  exact ⟨hd, hlen⟩

theorem set_then_erase (pre post : List erow) (prev row res : erow) :
    ((pre ++ prev :: row :: post).set pre.length res).eraseIdx (pre.length + 1)
      = pre ++ res :: post := by
  rw [List.set_append_right _ _ (le_refl _)]
  simp only [Nat.sub_self, List.set_cons_zero]
  rw [List.eraseIdx_append_of_length_le (by omega)]
  simp

/-- C21: backspace at column 0 merges rows.  For every state with `cx = 0` and
`0 < cy < numrows` (the rows `prev = rows[cy-1]` and `row = rows[cy]` exist),
`editorDeleteChar` returns the row sequence `rows[0..cy-1) ++ [prev.chars ++
row.chars] ++ rows[cy+1..numrows)`: `numrows` shrinks by 1, the bytes of all
rows in order are the same as before, the cursor becomes `(cx, cy) = (old size
of prev, cy - 1)` and the dirty counter grows (by 2).  When `cx = 0` and
`cy = 0`, or `cy = numrows`, the state is returned unchanged. -/
theorem C21_backspace_merges_rows (E : editorConfig) :
    (∀ prev row : erow, E.cx = 0 → 0 < E.cy → E.rowAt (E.cy - 1) = some prev →
      E.rowAt E.cy = some row →
      ∃ E1, editorDeleteChar E = some E1
        ∧ E1.rows.map erow.chars
            = (E.rows.map erow.chars).take (E.cy.toNat - 1)
              ++ [prev.chars ++ row.chars]
              ++ (E.rows.map erow.chars).drop (E.cy.toNat + 1)
        ∧ E1.numrows = E.numrows - 1
        ∧ (E1.rows.map erow.chars).flatten = (E.rows.map erow.chars).flatten
        ∧ E1.cx = prev.size ∧ E1.cy = E.cy - 1
        ∧ E1.dirty = E.dirty + 2 ∧ E.dirty < E1.dirty)
      ∧ (E.cx = 0 ∧ E.cy = 0 → editorDeleteChar E = some E)
      ∧ (E.cy = E.numrows → editorDeleteChar E = some E) := by
  refine ⟨?_, ?_, ?_⟩
  · intro prev row hcx hcy hprev hrow
    obtain ⟨m, hm, _⟩ := rowAt_lt E E.cy row hrow
    obtain ⟨n, hn⟩ : ∃ n : Nat, m = n + 1 := ⟨m - 1, by omega⟩
    have hcyn : E.cy = ((n + 1 : Nat) : Int) := by rw [hm, hn]
    have hcy1 : E.cy - 1 = (n : Int) := by rw [hcyn]; push_cast; omega
    have hgetp : E.rows[n]? = some prev := by
      rw [hcy1, rowAt_natCast] at hprev
      exact hprev
    have hgetr : E.rows[n + 1]? = some row := by
      rw [hcyn, rowAt_natCast] at hrow
      exact hrow
    obtain ⟨hd, hpre⟩ := list_split_two E.rows n prev row hgetp hgetr
    obtain ⟨pre, hpre2⟩ : ∃ pre, pre = E.rows.take n := ⟨_, rfl⟩
    obtain ⟨post, hpost⟩ : ∃ post, post = E.rows.drop (n + 2) := ⟨_, rfl⟩
    rw [← hpre2, ← hpost] at hd
    rw [← hpre2] at hpre
    obtain ⟨cx, cy, rx, ry, rowoff, coloff, screenrows, screencols, lncolwidth, rows, sh, dirty⟩ := E
    simp only at hcx hcyn hcy1 hd hrow hprev
    subst hcx hcyn hd
    subst hpre
    have hg1 : ¬ (((pre.length + 1 : Nat) : Int) = ((pre ++ prev :: row :: post).length : Nat)) := by
      simp only [List.length_append, List.length_cons]
      omega
    have hg2 : ¬ ((0 : Int) = 0 ∧ ((pre.length + 1 : Nat) : Int) = 0) := by omega
    have hg3 : ¬ ((0 : Int) > 0) := by omega
    have hto1 : (((pre.length + 1 : Nat) : Int) - 1).toNat = pre.length := by omega
    have hg4 : ¬ (((pre.length + 1 : Nat) : Int) < 0 ∨ ((pre.length + 1 : Nat) : Int)
        ≥ (((pre ++ prev :: row :: post).set pre.length
            (editorUpdateRow { prev with chars := prev.chars ++ row.chars })).length : Nat)) := by
      simp only [List.length_set, List.length_append, List.length_cons]
      omega
    simp only [editorDeleteChar, editorConfig.numrows, hg1, hg2, hg3, if_false, hrow, hprev,
      editorRowAppendString, editorDelRow, hto1, hg4, Int.toNat_ofNat, set_then_erase]
    have h1 : ((pre ++ prev :: row :: post).map erow.chars).take (pre.length + 1 - 1)
        = pre.map erow.chars := by
      rw [List.map_append, List.take_append_eq_append_take]
      simp
    have h2 : ((pre ++ prev :: row :: post).map erow.chars).drop (pre.length + 1 + 1)
        = post.map erow.chars := by
      have h3 : pre.length + 1 + 1 - pre.length = 2 := by omega
      rw [List.map_append, List.drop_append_eq_append_drop]
      simp [h3]
      omega
    refine ⟨_, rfl, ?_, ?_, ?_, rfl, rfl, ?_, ?_⟩
    · rw [h1, h2]
      simp [editorUpdateRow_chars]
    · simp
      omega
    · simp [editorUpdateRow_chars]
    · simp only
      omega
    · simp only
      omega
  · intro h
    by_cases h1 : E.cy = E.numrows
    · simp only [editorDeleteChar, h1, if_true]
    · rw [editorDeleteChar, if_neg h1, if_pos h]
  · intro h
    simp only [editorDeleteChar, h, if_true]

theorem C21_backspace_merges_rows_witness :
    (∃ E1, editorDeleteChar mergeState = some E1
        ∧ E1.rows.map erow.chars
            = (mergeState.rows.map erow.chars).take (mergeState.cy.toNat - 1)
              ++ [(editorUpdateRow ⟨[120, 97, 98, 121], [], []⟩).chars
                  ++ (editorUpdateRow ⟨[97, 98, 97, 98, 97, 98], [], []⟩).chars]
              ++ (mergeState.rows.map erow.chars).drop (mergeState.cy.toNat + 1)
        ∧ E1.numrows = mergeState.numrows - 1
        ∧ (E1.rows.map erow.chars).flatten = (mergeState.rows.map erow.chars).flatten
        ∧ E1.cx = (editorUpdateRow ⟨[120, 97, 98, 121], [], []⟩).size
        ∧ E1.cy = mergeState.cy - 1
        ∧ E1.dirty = mergeState.dirty + 2 ∧ mergeState.dirty < E1.dirty)
      ∧ editorDeleteChar { abBuffer with cx := 0, cy := 0 } = some { abBuffer with cx := 0, cy := 0 }
      ∧ editorDeleteChar { abBuffer with cx := 3, cy := 2 } = some { abBuffer with cx := 3, cy := 2 } :=
  ⟨(C21_backspace_merges_rows mergeState).1 (editorUpdateRow ⟨[120, 97, 98, 121], [], []⟩)
      (editorUpdateRow ⟨[97, 98, 97, 98, 97, 98], [], []⟩) (by decide) (by decide) (by decide)
      (by decide),
    (C21_backspace_merges_rows { abBuffer with cx := 0, cy := 0 }).2.1 (by decide),
    (C21_backspace_merges_rows { abBuffer with cx := 3, cy := 2 }).2.2 (by decide)⟩

/-- The merge of C21 evaluated: the rows `"xaby"`, `"ababab"` with the cursor at
`(cx, cy) = (0, 1)` become the single row `"xabyababab"` with the cursor at
`(4, 0)`, and the dirty counter goes from 2 to 4. -/
theorem backspace_merge_example :
    (editorDeleteChar mergeState).map (fun E => (E.rows.map erow.chars, E.cx, E.cy, E.dirty))
      = some ([[120, 97, 98, 121, 97, 98, 97, 98, 97, 98]], 4, 0, 4)
    ∧ mergeState.dirty = 2 := by
  decide

/-! ## the row cache invariant -/

/-- The render loop builds a render form in the sense of `renderOf`. -/
theorem renderLoop_renderOf (cs : List Nat) : ∀ acc, renderOf cs acc (renderLoop cs acc) := by
  induction cs with
  | nil => intro acc; rfl
  | cons c cs ih =>
    intro acc
    by_cases hc : c = 9
    · simp only [renderOf, renderLoop, hc, if_true, tab_step]
      refine ⟨4 - acc.length % 4, ?_, ?_, ?_, ih _⟩
      · simp only [KILO_TAB_STOP]
        omega
      · omega
      · simp only [KILO_TAB_STOP]
        omega
    · simp only [renderOf, renderLoop, hc, if_false]
      exact ih _

/-- The words of `renderOf` leave no choice: the render form is the one the
render loop builds. -/
theorem renderOf_unique (cs : List Nat) : ∀ acc render, renderOf cs acc render →
    render = renderLoop cs acc := by
  induction cs with
  | nil => intro acc render h; exact h
  | cons c cs ih =>
    intro acc render h
    by_cases hc : c = 9
    · simp only [renderOf, hc, if_true, KILO_TAB_STOP] at h
      obtain ⟨k, hk4, hk1, hmod, hrest⟩ := h
      have hk : k = 4 - acc.length % 4 := by omega
      subst hk
      simp only [renderLoop, hc, if_true, tab_step]
      exact ih _ _ hrest
    · simp only [renderOf, hc, if_false] at h
      simp only [renderLoop, hc, if_false]
      exact ih _ _ h

/-- A row that `editorUpdateRow` has rebuilt satisfies the row cache invariant. -/
theorem editorUpdateRow_rowCacheOk (row : erow) : rowCacheOk (editorUpdateRow row) := by
  refine ⟨renderLoop_renderOf row.chars [], rfl, ?_, ?_⟩
  · simp [editorUpdateRow, editorUpdateSyntax, erow.rsize]
  · intro p _
    simp only [editorUpdateRow, editorUpdateSyntax, List.getElem?_map]
    congr 1
    funext c
    simp [isdigit]

/-- The row cache invariant says that the cache is what `editorUpdateRow` builds. -/
theorem rowCacheOk_iff (row : erow) : rowCacheOk row ↔ editorUpdateRow row = row := by
  constructor
  · intro h
    obtain ⟨hr, _, hlen, hhl⟩ := h
    have hrender : row.render = renderLoop row.chars [] := renderOf_unique _ _ _ hr
    have hlen2 : row.hl.length = row.render.length := by
      simpa [erow.rsize] using hlen
    have hhl2 : row.hl
        = row.render.map fun c => if isdigit c then HL_NUMBER else HL_NORMAL := by
      apply List.ext_getElem?
      intro p
      by_cases hp : p < row.render.length
      · rw [hhl p hp, List.getElem?_map]
        congr 1
        funext c
        simp [isdigit]
      · rw [List.getElem?_eq_none (by omega), List.getElem?_eq_none (by simp; omega)]
    obtain ⟨chars, render, hl⟩ := row
    simp only at hrender hhl2
    simp only [editorUpdateRow, editorUpdateSyntax, ← hrender, ← hhl2]
  · intro h
    rw [← h]
    exact editorUpdateRow_rowCacheOk row

theorem editorInsertRow_cacheOk (E : editorConfig) (hE : cacheOk E) (idx : Int) (s : List Nat) :
    cacheOk (editorInsertRow E idx s) := by
  unfold editorInsertRow
  split
  · exact hE
  · intro r hr
    simp only [List.mem_append, List.mem_cons] at hr
    rcases hr with h | h | h
    · exact hE r (List.mem_of_mem_take h)
    · rw [h]
      exact editorUpdateRow_rowCacheOk _
    · exact hE r (List.mem_of_mem_drop h)

theorem editorDelRow_cacheOk (E : editorConfig) (hE : cacheOk E) (idx : Int) :
    cacheOk (editorDelRow E idx) := by
  unfold editorDelRow
  split
  · exact hE
  · intro r hr
    exact hE r (List.mem_of_mem_eraseIdx hr)

theorem set_cacheOk (rows : List erow) (h : ∀ r ∈ rows, rowCacheOk r) (n : Nat) (row : erow)
    (hrow : rowCacheOk row) : ∀ r ∈ rows.set n row, rowCacheOk r := by
  intro r hr
  rcases List.mem_or_eq_of_mem_set hr with h1 | h1
  · exact h r h1
  · rw [h1]
    exact hrow

theorem rowAt_mem (E : editorConfig) (i : Int) (row : erow) (h : E.rowAt i = some row) :
    row ∈ E.rows := by
  unfold editorConfig.rowAt at h
  split at h
  · exact List.getElem?_mem h
  · cases h

theorem editorRowDelChar_rowCacheOk (row : erow) (dirty idx : Int) (res : erow × Int)
    (hrow : rowCacheOk row) (h : editorRowDelChar row dirty idx = some res) :
    rowCacheOk res.1 := by
  unfold editorRowDelChar at h
  split at h
  · cases h
    exact hrow
  · split at h
    · cases h
    · cases h
      exact editorUpdateRow_rowCacheOk _

theorem editorInsertNewline_cacheOk (E E1 : editorConfig) (hE : cacheOk E)
    (h : editorInsertNewline E = some E1) : cacheOk E1 := by
  unfold editorInsertNewline at h
  split at h
  · cases h
    exact editorInsertRow_cacheOk E hE _ _
  · split at h
    · cases h
    · split at h
      · cases h
      · cases h
        exact set_cacheOk _ (editorInsertRow_cacheOk E hE _ _) _ _ (editorUpdateRow_rowCacheOk _)

theorem editorDeleteChar_cacheOk (E E1 : editorConfig) (hE : cacheOk E)
    (h : editorDeleteChar E = some E1) : cacheOk E1 := by
  unfold editorDeleteChar at h
  split at h
  · cases h
    exact hE
  · split at h
    · cases h
      exact hE
    · split at h
      · cases h
      · rename_i row hrow
        split at h
        · split at h
          · cases h
          · rename_i res hres
            cases h
            exact set_cacheOk _ hE _ _
              (editorRowDelChar_rowCacheOk row _ _ res (hE row (rowAt_mem E _ row hrow)) hres)
        · split at h
          · cases h
          · cases h
            apply editorDelRow_cacheOk
            exact set_cacheOk _ hE _ _ (editorUpdateRow_rowCacheOk _)

/-- A newline with the cursor on a row and `0 ≤ cx ≤ size` has a result. -/
theorem editorInsertNewline_some (E : editorConfig) (row : erow) (hrow : E.rowAt E.cy = some row)
    (h0 : 0 ≤ E.cx) (h1 : E.cx ≤ row.size) : ∃ E1, editorInsertNewline E = some E1 := by
  have hg : ¬ (E.cx < 0 ∨ E.cx > row.size) := by omega
  by_cases hc : E.cx = 0
  · exact ⟨_, by rw [editorInsertNewline, if_pos hc]⟩
  · apply Option.isSome_iff_exists.mp
    simp only [editorInsertNewline, hc, if_false, hrow, hg, Option.isSome_some]

/-- A backspace with the cursor on a row and `0 ≤ cx ≤ size` has a result. -/
theorem editorDeleteChar_some (E : editorConfig) (row : erow) (hrow : E.rowAt E.cy = some row)
    (h0 : 0 ≤ E.cx) (h1 : E.cx ≤ row.size) : ∃ E1, editorDeleteChar E = some E1 := by
  obtain ⟨m, hm, hmlt⟩ := rowAt_lt E E.cy row hrow
  have hne : ¬ (E.cy = E.numrows) := by
    simp only [editorConfig.numrows]
    omega
  by_cases hz : E.cx = 0 ∧ E.cy = 0
  · exact ⟨_, by rw [editorDeleteChar, if_neg hne, if_pos hz]⟩
  · by_cases hpos : E.cx > 0
    · obtain ⟨k, hk⟩ := Int.eq_ofNat_of_zero_le (show 0 ≤ E.cx - 1 by omega)
      have hklt : k < row.chars.length := by
        simp only [erow.size] at h1
        omega
      have hdel := editorRowDelChar_inrange row E.dirty k hklt
      rw [← hk] at hdel
      apply Option.isSome_iff_exists.mp
      simp only [editorDeleteChar, hne, hz, if_false, hrow, hpos, if_true, hdel,
        Option.isSome_some]
    · have hm1 : m - 1 < E.rows.length := by omega
      obtain ⟨prev, hprev⟩ := rowAt_some_of_lt E (m - 1) hm1
      have hcy1 : E.cy - 1 = ((m - 1 : Nat) : Int) := by omega
      rw [← hcy1] at hprev
      apply Option.isSome_iff_exists.mp
      simp only [editorDeleteChar, hne, hz, if_false, hrow, hpos, hprev, Option.isSome_some]

/-! ## C22: the row cache invariant -/

/-- C22: the row cache invariant `rowCacheOk` (`render` is `chars` with every
tab replaced by 1 to 4 spaces up to the next multiple of the tab stop 4 and
every other byte copied, `rsize` is the length of `render`, `hl` has `rsize`
tags, `HL_NUMBER` at the ASCII digits of `render` and `HL_NORMAL` elsewhere)
holds for the row that `editorInsertRow` creates, holds for the row that
`editorRowInsertChar`, `editorRowDelChar` with an index `0 ≤ at < size` (which
returns) and `editorRowAppendString` leave, and in a buffer whose rows all
satisfy it the rows after `editorInsertRow`, `editorInsertNewline`,
`editorDeleteChar` and `editorDelRow` all satisfy it; the last two editor
operations return whenever the cursor is on a row with `0 ≤ cx ≤ size`. -/
theorem C22_row_cache_invariant (E : editorConfig) (hE : cacheOk E) :
    (∀ idx s, cacheOk (editorInsertRow E idx s))
      ∧ (∀ idx s, 0 ≤ idx → idx ≤ E.numrows →
          ∃ row, (editorInsertRow E idx s).rowAt idx = some row ∧ row.chars = s
            ∧ rowCacheOk row)
      ∧ (∀ row dirty idx c, rowCacheOk (editorRowInsertChar row dirty idx c).1)
      ∧ (∀ row dirty idx, 0 ≤ idx → idx < row.size →
          ∃ res, editorRowDelChar row dirty idx = some res ∧ rowCacheOk res.1)
      ∧ (∀ row dirty s, rowCacheOk (editorRowAppendString row dirty s).1)
      ∧ (∀ E1, editorInsertNewline E = some E1 → cacheOk E1)
      ∧ (∀ E1, editorDeleteChar E = some E1 → cacheOk E1)
      ∧ (∀ row, E.rowAt E.cy = some row → 0 ≤ E.cx → E.cx ≤ row.size →
          (∃ E1, editorInsertNewline E = some E1 ∧ cacheOk E1)
            ∧ ∃ E1, editorDeleteChar E = some E1 ∧ cacheOk E1)
      ∧ (∀ idx, cacheOk (editorDelRow E idx)) := by
  refine ⟨editorInsertRow_cacheOk E hE, ?_, ?_, ?_, ?_, ?_, ?_, ?_, editorDelRow_cacheOk E hE⟩
  · intro idx s h0 h1
    obtain ⟨n, hn⟩ := Int.eq_ofNat_of_zero_le h0
    subst hn
    have hg : ¬ ((n : Int) < 0 ∨ (n : Int) > E.numrows) := by omega
    have hn : n ≤ E.rows.length := by
      simp only [editorConfig.numrows] at h1
      omega
    refine ⟨editorUpdateRow { chars := s, render := [], hl := [] }, ?_, rfl,
      editorUpdateRow_rowCacheOk _⟩
    rw [rowAt_natCast]
    simp only [editorInsertRow, hg, if_false, Int.toNat_ofNat]
    rw [List.getElem?_append_right (by simp [hn])]
    simp [hn]
  · intro row dirty idx c
    exact editorUpdateRow_rowCacheOk _
  · intro row dirty idx h0 h1
    obtain ⟨n, hn⟩ := Int.eq_ofNat_of_zero_le h0
    subst hn
    have hlt : n < row.chars.length := by
      simp only [erow.size] at h1
      omega
    exact ⟨_, editorRowDelChar_inrange row dirty n hlt, editorUpdateRow_rowCacheOk _⟩
  · intro row dirty s
    exact editorUpdateRow_rowCacheOk _
  · intro E1 h
    exact editorInsertNewline_cacheOk E E1 hE h
  · intro E1 h
    exact editorDeleteChar_cacheOk E E1 hE h
  · intro row hrow h0 h1
    obtain ⟨E1, h⟩ := editorInsertNewline_some E row hrow h0 h1
    obtain ⟨E2, h2⟩ := editorDeleteChar_some E row hrow h0 h1
    exact ⟨⟨E1, h, editorInsertNewline_cacheOk E E1 hE h⟩,
      ⟨E2, h2, editorDeleteChar_cacheOk E E2 hE h2⟩⟩

theorem C22_row_cache_invariant_witness :
    cacheOk tabBuffer
      ∧ cacheOk (editorInsertRow tabBuffer 1 [9, 49])
      ∧ (∃ E1, editorInsertNewline tabBuffer = some E1 ∧ cacheOk E1)
      ∧ ∃ E1, editorDeleteChar tabBuffer = some E1 ∧ cacheOk E1 :=
  ⟨by decide, (C22_row_cache_invariant tabBuffer (by decide)).1 1 [9, 49],
    (C22_row_cache_invariant tabBuffer (by decide)).2.2.2.2.2.2.2.1
      (editorUpdateRow ⟨[97, 9, 55, 9, 98], [], []⟩) (by decide) (by decide) (by decide)⟩

/-- The invariant of C22 evaluated: the row `'a'`, TAB, `'7'` with the render
`a`, three spaces, `7` and the tags of that render satisfies it; the same row
with a tab rendered as one space, with a missing tag, or with the digit tagged
`HL_NORMAL` does not; and the rows after a merge by backspace and after a split
by a newline satisfy it. -/
theorem row_cache_example :
    rowCacheOk ⟨[97, 9, 55], [97, 32, 32, 32, 55], [0, 0, 0, 0, 1]⟩
      ∧ ¬ rowCacheOk ⟨[97, 9, 55], [97, 32, 55], [0, 0, 1]⟩
      ∧ ¬ rowCacheOk ⟨[97, 9, 55], [97, 32, 32, 32, 55], [0, 0, 0, 0]⟩
      ∧ ¬ rowCacheOk ⟨[97, 9, 55], [97, 32, 32, 32, 55], [0, 0, 0, 0, 0]⟩
      ∧ (editorDeleteChar mergeState).map (fun E => decide (cacheOk E)) = some true
      ∧ (editorInsertNewline splitState).map (fun E => decide (cacheOk E)) = some true := by
  decide

end Lv
